import Mathlib

/-!
# FileRenaming: batch rename engine (`app.go`)

A shallow embedding of `App.RenameFiles` and `App.AIRenameFiles` together with the
Go standard-library routines they call.  Go strings are byte sequences, the
filesystem is an explicit state, and every `os.Rename` call is recorded in a log.
-/

namespace FileRenaming

/-! ## Go strings and UTF-8 -/

/-- A Go string: an immutable sequence of bytes, each byte a natural number below 256. -/
abbrev GoString := List Nat

/-- The rune `utf8.RuneError` (U+FFFD). -/
def RuneError : Nat := 0xFFFD

/-- Go `utf8.AppendRune`: the UTF-8 encoding of a rune; surrogates and values above
U+10FFFF are encoded as `RuneError`. -/
def encodeRune (r : Nat) : GoString :=
  if r < 0x80 then [r]
  else if r ≤ 0x7FF then [0xC0 + r / 64, 0x80 + r % 64]
  else if 0x10FFFF < r ∨ (0xD800 ≤ r ∧ r ≤ 0xDFFF) then [0xEF, 0xBF, 0xBD]
  else if r ≤ 0xFFFF then [0xE0 + r / 4096, 0x80 + (r / 64) % 64, 0x80 + r % 64]
  else [0xF0 + r / 262144, 0x80 + (r / 4096) % 64, 0x80 + (r / 64) % 64, 0x80 + r % 64]

/-- The bytes of a Go string literal (Go source text is UTF-8). -/
def str (s : String) : GoString := s.toList.flatMap (fun c => encodeRune c.toNat)

/-- Continuation byte test: `0x80 ≤ b ≤ 0xBF`. -/
def isCont (b : Nat) : Bool := 0x80 ≤ b && b ≤ 0xBF

/-- Go `utf8.DecodeRuneInString`: the first rune of `s` and its width in bytes.
Invalid or truncated encodings give `(RuneError, 1)`, the empty string `(RuneError, 0)`. -/
def decodeRune : GoString → Nat × Nat
  | [] => (RuneError, 0)
  | b0 :: rest =>
    if b0 < 0x80 then (b0, 1)
    else if 0xC2 ≤ b0 ∧ b0 ≤ 0xDF then
      match rest with
      | b1 :: _ => if isCont b1 then ((b0 % 32) * 64 + b1 % 64, 2) else (RuneError, 1)
      | _ => (RuneError, 1)
    else if 0xE0 ≤ b0 ∧ b0 ≤ 0xEF then
      match rest with
      | b1 :: b2 :: _ =>
        let lo := if b0 = 0xE0 then 0xA0 else 0x80
        let hi := if b0 = 0xED then 0x9F else 0xBF
        if lo ≤ b1 ∧ b1 ≤ hi ∧ isCont b2 then
          ((b0 % 16) * 4096 + (b1 % 64) * 64 + b2 % 64, 3)
        else (RuneError, 1)
      | _ => (RuneError, 1)
    else if 0xF0 ≤ b0 ∧ b0 ≤ 0xF4 then
      match rest with
      | b1 :: b2 :: b3 :: _ =>
        let lo := if b0 = 0xF0 then 0x90 else 0x80
        let hi := if b0 = 0xF4 then 0x8F else 0xBF
        if lo ≤ b1 ∧ b1 ≤ hi ∧ isCont b2 ∧ isCont b3 then
          ((b0 % 8) * 262144 + (b1 % 64) * 4096 + (b2 % 64) * 64 + b3 % 64, 4)
        else (RuneError, 1)
      | _ => (RuneError, 1)
    else (RuneError, 1)

/-- The runes of a Go string as a `for _, c := range s` loop sees them: each invalid
byte yields one `RuneError`.  The first argument counts bytes still to be skipped
because they belong to the rune decoded last. -/
def runesFrom : Nat → GoString → List Nat
  | _, [] => []
  | k + 1, _ :: rest => runesFrom k rest
  | 0, b :: rest => (decodeRune (b :: rest)).1 :: runesFrom ((decodeRune (b :: rest)).2 - 1) rest

/-- The runes of a Go string. -/
def runes (s : GoString) : List Nat := runesFrom 0 s

/-- Go `strings.Map` for a mapping that never returns a negative rune: every rune of
`s` is replaced by its image, re-encoded. -/
def stringsMap (f : Nat → Nat) (s : GoString) : GoString :=
  (runes s).flatMap (fun c => encodeRune (f c))

/-- The case-mapping rows of Go package `unicode` for runes above U+007F
(`unicode.To(unicode.UpperCase, r)` and `unicode.To(unicode.LowerCase, r)`).
The tables are data of the standard library and are taken as a parameter. -/
structure CaseTables where
  upper : Nat → Nat
  lower : Nat → Nat

/-- Go `unicode.ToUpper`. -/
def unicodeToUpper (u : CaseTables) (r : Nat) : Nat :=
  if r ≤ 0x7F then (if 0x61 ≤ r ∧ r ≤ 0x7A then r - 0x20 else r) else u.upper r

/-- Go `unicode.ToLower`. -/
def unicodeToLower (u : CaseTables) (r : Nat) : Nat :=
  if r ≤ 0x7F then (if 0x41 ≤ r ∧ r ≤ 0x5A then r + 0x20 else r) else u.lower r

/-- Go `strings.ToUpper`. -/
def ToUpper (u : CaseTables) (s : GoString) : GoString := stringsMap (unicodeToUpper u) s

/-- Go `strings.ToLower`. -/
def ToLower (u : CaseTables) (s : GoString) : GoString := stringsMap (unicodeToLower u) s

/-- Case tables for the Latin-1 Supplement block (U+0080 to U+00FF); every other rune
is its own image, which is what package `unicode` gives for caseless scripts such as
CJK ideographs. -/
def latin1Tables : CaseTables where
  upper := fun r =>
    if r = 0xB5 then 0x39C
    else if r = 0xFF then 0x178
    else if 0xE0 ≤ r ∧ r ≤ 0xFE ∧ r ≠ 0xF7 then r - 0x20
    else r
  lower := fun r =>
    if 0xC0 ≤ r ∧ r ≤ 0xDE ∧ r ≠ 0xD7 then r + 0x20 else r

/-- Go `strings.HasPrefix`, byte-wise. -/
def hasPrefix : GoString → GoString → Bool
  | _, [] => true
  | [], _ :: _ => false
  | a :: s, b :: p => a == b && hasPrefix s p

/-- Go `strings.ReplaceAll(s, old, new)` for a non-empty `old`: leftmost
non-overlapping occurrences of `old` are replaced by `new`.  The first argument counts
the bytes of a matched occurrence that are still to be skipped. -/
def replaceFrom (old new : GoString) : Nat → GoString → GoString
  | _, [] => []
  | k + 1, _ :: rest => replaceFrom old new k rest
  | 0, b :: rest =>
    if hasPrefix (b :: rest) old then new ++ replaceFrom old new (old.length - 1) rest
    else b :: replaceFrom old new 0 rest

/-- Go `strings.ReplaceAll`.  For an empty `old` Go inserts `new` before every rune
and at the end of the string. -/
def ReplaceAll (s old new : GoString) : GoString :=
  if old = [] then (runes s).flatMap (fun c => new ++ encodeRune c) ++ new
  else replaceFrom old new 0 s

/-- Go `strings.TrimSuffix`. -/
def TrimSuffix (s suffix : GoString) : GoString :=
  if hasPrefix s.reverse suffix.reverse then s.take (s.length - suffix.length) else s

/-- Decimal digits of a natural number, as bytes. -/
def natDigits (n : Nat) : GoString := (Nat.toDigits 10 n).map Char.toNat

/-- The `%d` verb of `fmt.Sprintf` for an `int`. -/
def itoa (n : Int) : GoString :=
  if n < 0 then 0x2D :: natDigits n.natAbs else natDigits n.natAbs

/-- Go `int` on a 64-bit platform: the two-complement value an arithmetic result wraps to. -/
def wrapInt (x : Int) : Int := (x + 9223372036854775808) % 18446744073709551616 - 9223372036854775808

/-! ## Package `path/filepath` (Unix: the separator is `/`) -/

/-- The path separator `/`. -/
def sep : Nat := 0x2F

/-- Backward scan of `filepath.Ext`: the first argument is the unread part of the path,
last byte first; the second the bytes already passed. -/
def extScan : GoString → GoString → GoString
  | [], _ => []
  | b :: rest, acc =>
    if b = sep then [] else if b = 0x2E then b :: acc else extScan rest (b :: acc)

/-- Go `filepath.Ext`: the suffix beginning at the last dot of the final path element,
empty when that element has no dot. -/
def Ext (path : GoString) : GoString := extScan path.reverse []

/-- The elements of a path between separators: `splitSep cur s` splits `s` at every
`/`, where `cur` holds the bytes of the current element read so far, in reverse. -/
def splitSep : GoString → GoString → List GoString
  | cur, [] => [cur.reverse]
  | cur, b :: rest => if b = sep then cur.reverse :: splitSep [] rest else splitSep (b :: cur) rest

/-- One element processed by `filepath.Clean`; the stack holds the elements written so
far, last one first.  Empty and `.` elements are dropped, `..` removes the last real
element, is kept in front of a relative path and is dropped at the root. -/
def cleanStep (rooted : Bool) (stack : List GoString) (c : GoString) : List GoString :=
  if c = [] ∨ c = [0x2E] then stack
  else if c = [0x2E, 0x2E] then
    match stack with
    | [] => if rooted then [] else [c]
    | top :: below => if top = [0x2E, 0x2E] then c :: top :: below else below
  else c :: stack

/-- Elements joined by single separators. -/
def joinSep : List GoString → GoString
  | [] => []
  | [c] => c
  | c :: d :: rest => c ++ sep :: joinSep (d :: rest)

/-- Go `filepath.Clean`: the shortest path equivalent to `path` by purely lexical
processing. -/
def Clean (path : GoString) : GoString :=
  if path = [] then [0x2E]
  else
    let rooted := path.head? = some sep
    let stack := (splitSep [] path).foldl (cleanStep rooted) []
    if rooted then sep :: joinSep stack.reverse
    else if stack = [] then [0x2E]
    else joinSep stack.reverse

/-- Go `filepath.Join` for two elements: empty elements are ignored and the result is
cleaned; two empty elements give the empty string. -/
def Join (a b : GoString) : GoString :=
  if a ≠ [] then Clean (a ++ sep :: b)
  else if b ≠ [] then Clean b
  else []

/-- Backward scan of `filepath.Dir`: drops bytes from the end until a separator. -/
def dirPrefix : GoString → GoString
  | [] => []
  | b :: rest => if b = sep then b :: rest else dirPrefix rest

/-- Go `filepath.Dir`: all but the last element of the path, cleaned. -/
def Dir (path : GoString) : GoString := Clean (dirPrefix path.reverse).reverse

/-- Go `getEsc` of `match.go`: one possibly escaped rune of a character class;
`none` is `ErrBadPattern`. -/
def getEsc (chunk : GoString) : Option (Nat × GoString) :=
  match chunk with
  | [] => none
  | c :: rest =>
    if c = 0x2D ∨ c = 0x5D then none
    else
      let chunk1 := if c = 0x5C then rest else c :: rest
      if chunk1 = [] then none
      else
        let d := decodeRune chunk1
        let nchunk := chunk1.drop d.2
        if (d.1 = RuneError ∧ d.2 = 1) ∨ nchunk = [] then none else some (d.1, nchunk)

/-- The range loop of a character class in `matchChunk`: returns whether rune `r` fell
in one of the ranges and the chunk after the closing bracket; `none` is `ErrBadPattern`.
Every round consumes a byte of the chunk, which bounds the rounds. -/
def classLoop (r : Nat) : Nat → GoString → Bool → Nat → Option (Bool × GoString)
  | 0, _, _, _ => none
  | fuel + 1, chunk, m, nrange =>
    if chunk.head? = some 0x5D ∧ nrange > 0 then some (m, chunk.tail)
    else
      match getEsc chunk with
      | none => none
      | some (lo, chunk1) =>
        if chunk1.head? = some 0x2D then
          match getEsc chunk1.tail with
          | none => none
          | some (hi, chunk2) => classLoop r fuel chunk2 (m || (decide (lo ≤ r) && decide (r ≤ hi))) (nrange + 1)
        else classLoop r fuel chunk1 (m || (decide (lo ≤ r) && decide (r ≤ lo))) (nrange + 1)

/-- The loop of Go `matchChunk`: outer `none` is `ErrBadPattern`, inner `none` a failed
match, `some rest` the unmatched remainder of `s`. -/
def matchChunkLoop : Nat → GoString → GoString → Bool → Option (Option GoString)
  | _, [], s, failed => some (if failed then none else some s)
  | 0, _ :: _, _, _ => none
  | fuel + 1, c :: chunkRest, s, failed0 =>
    let failed := failed0 || s.isEmpty
    if c = 0x5B then
      let r := if failed then 0 else (decodeRune s).1
      let s1 := if failed then s else s.drop (decodeRune s).2
      let negated := chunkRest.head? = some 0x5E
      let chunk1 := if negated then chunkRest.tail else chunkRest
      match classLoop r (chunk1.length + 1) chunk1 false 0 with
      | none => none
      | some (m, chunk2) => matchChunkLoop fuel chunk2 s1 (failed || (m == decide negated))
    else if c = 0x3F then
      matchChunkLoop fuel chunkRest (if failed then s else s.drop (decodeRune s).2)
        (failed || s.head? == some sep)
    else
      let chunk1 := if c = 0x5C then chunkRest else c :: chunkRest
      match chunk1 with
      | [] => none
      | d :: chunk2 =>
        matchChunkLoop fuel chunk2 (if failed then s else s.tail) (failed || s.head? != some d)

/-- Go `matchChunk`. -/
def matchChunk (chunk s : GoString) : Option (Option GoString) :=
  matchChunkLoop (chunk.length + 1) chunk s false

/-- Length of the chunk found by Go `scanChunk` after the leading stars: up to the next
star outside a character class; an escaped byte is passed over. -/
def scanLen : GoString → Bool → Nat
  | [], _ => 0
  | b :: rest, inrange =>
    if b = 0x5C then
      match rest with
      | [] => 1
      | _ :: rest2 => 2 + scanLen rest2 inrange
    else if b = 0x5B then 1 + scanLen rest true
    else if b = 0x5D then 1 + scanLen rest false
    else if b = 0x2A ∧ ¬ inrange then 0
    else 1 + scanLen rest inrange

/-- Go `scanChunk`: whether the pattern starts with stars, the chunk after them, and
the rest of the pattern. -/
def scanChunk (pattern : GoString) : Bool × GoString × GoString :=
  let p := pattern.dropWhile (fun b => b == 0x2A)
  let i := scanLen p false
  (pattern.head? == some 0x2A, p.take i, p.drop i)

/-- The loop of `filepath.Match` that retries a chunk after a star at every later
position of the name, never skipping a separator. -/
def starLoop (chunk : GoString) (lastChunk : Bool) : GoString → Option (Option GoString)
  | [] => some none
  | b :: rest =>
    if b = sep then some none
    else
      match matchChunk chunk rest with
      | none => none
      | some (some t) => if lastChunk ∧ t ≠ [] then starLoop chunk lastChunk rest else some (some t)
      | some none => starLoop chunk lastChunk rest

/-- The main loop of `filepath.Match`; the result is `(matched, err != nil)`. -/
def matchLoop : Nat → GoString → GoString → Bool × Bool
  | 0, _, name => (name.isEmpty, false)
  | fuel + 1, pattern, name =>
    if pattern = [] then (name.isEmpty, false)
    else
      let star := (scanChunk pattern).1
      let chunk := (scanChunk pattern).2.1
      let rest := (scanChunk pattern).2.2
      if star ∧ chunk = [] then (!(name.contains sep), false)
      else
        match matchChunk chunk name with
        | none => (false, true)
        | some r =>
          match r with
          | some t =>
            if t = [] ∨ rest ≠ [] then matchLoop fuel rest t
            else if star then
              match starLoop chunk (rest.isEmpty) name with
              | none => (false, true)
              | some (some t2) => matchLoop fuel rest t2
              | some none => (false, false)
            else (false, false)
          | none =>
            if star then
              match starLoop chunk (rest.isEmpty) name with
              | none => (false, true)
              | some (some t2) => matchLoop fuel rest t2
              | some none => (false, false)
            else (false, false)

/-- Go `filepath.Match(pattern, name)`: `(matched, err != nil)`.  Every round of the
main loop consumes at least one byte of the pattern. -/
def filepathMatch (pattern name : GoString) : Bool × Bool :=
  matchLoop (pattern.length + 1) pattern name

/-! ## The filesystem -/

/-- What an `os.Stat` call reports: success, an error for which `os.IsNotExist` holds,
or any other error. -/
inductive StatResult where
  | ok
  | notExist
  | otherError
deriving DecidableEq, Repr

/-- The state of the filesystem as `os.Stat` and `os.Rename` see it: at which paths a
file exists, on which paths `os.Stat` fails for a reason other than non-existence (a
name beyond the length limit, a directory that may not be searched, a non-directory on
the way), and for which pairs of paths the operating system refuses a rename
(permission, cross-device link, missing parent directory, ...) together with the error
text.  Paths name regular files; directories and symbolic links as sources or targets
of a rename are outside this model. -/
structure FileSystem where
  exist : GoString → Bool
  statFails : GoString → Bool
  refuse : GoString → GoString → Option GoString

/-- A filesystem holding exactly the listed paths, on which every `os.Stat` can examine
its path and no rename is refused. -/
def fsOf (present : List GoString) : FileSystem where
  exist := fun p => decide (p ∈ present)
  statFails := fun _ => false
  refuse := fun _ _ => none

/-- Go `os.Stat(path)`, reduced to what `os.IsNotExist` can tell apart. -/
def osStat (fs : FileSystem) (path : GoString) : StatResult :=
  if fs.statFails path = true then StatResult.otherError
  else if fs.exist path = true then StatResult.ok
  else StatResult.notExist

/-- Go `os.IsNotExist(err)` for the error returned by an `os.Stat` call. -/
def osIsNotExist : StatResult → Bool
  | StatResult.notExist => true
  | _ => false

/-- One `os.Rename(old, new)` call and whether it returned a nil error. -/
structure RenameCall where
  old : GoString
  new : GoString
  ok : Bool
deriving DecidableEq, Repr

/-- The world a batch runs in: the filesystem and the `os.Rename` calls issued so far,
oldest first. -/
structure World where
  fs : FileSystem
  calls : List RenameCall

/-- The text of the `*os.LinkError` returned by a failed `os.Rename`. -/
def linkError (old new reason : GoString) : GoString :=
  str "rename " ++ old ++ str " " ++ new ++ str ": " ++ reason

/-- Go `os.Rename(old, new)`: fails when `old` does not exist or the system refuses;
otherwise `old` disappears and `new` exists. -/
def osRename (fs : FileSystem) (old new : GoString) : FileSystem × Option GoString :=
  if fs.exist old = false then (fs, some (linkError old new (str "no such file or directory")))
  else
    match fs.refuse old new with
    | some reason => (fs, some (linkError old new reason))
    | none =>
      ({ fs with exist := fun p => if p = new then true else if p = old then false else fs.exist p },
        none)

/-! ## `app.go` -/

/-- Go `FileInfo` (lines 37-42). -/
structure FileInfo where
  Path : GoString
  Name : GoString
  IsDir : Bool
  FullPath : GoString
deriving DecidableEq, Repr

/-- Go `RenameRule` (lines 45-61); `int` fields hold values of the 64-bit range. -/
structure RenameRule where
  Mode : GoString
  Pattern : GoString
  ReplaceFrom : GoString
  ReplaceTo : GoString
  AddPrefix : GoString
  AddSuffix : GoString
  CaseType : GoString
  NumberStart : Int
  NumberStep : Int
  AIPrompt : GoString
  AIGenerated : List GoString
deriving DecidableEq, Repr

/-- The zero value of `RenameRule`. -/
def RenameRule.zero : RenameRule :=
  ⟨[], [], [], [], [], [], [], 0, 0, [], []⟩

/-- The range of Go `int`. -/
def isInt64 (x : Int) : Prop := -9223372036854775808 ≤ x ∧ x ≤ 9223372036854775807

/-- The string `fmt.Sprintf("%s_%d", name, n)`. -/
def sprintfNameNumber (name : GoString) (n : Int) : GoString := name ++ str "_" ++ itoa n

/-- The message `fmt.Sprintf("无法重命名 %s: 目标文件已存在", name)` (lines 246 and 580). -/
def exhaustedMessage (name : GoString) : GoString :=
  str "无法重命名 " ++ name ++ str ": 目标文件已存在"

/-- The message `fmt.Sprintf("重命名 %s 失败: %v", name, err)` (lines 255 and 589). -/
def failedMessage (name errText : GoString) : GoString :=
  str "重命名 " ++ name ++ str " 失败: " ++ errText

/-- The glob test of `RenameFiles` (lines 179-184): `false` when the file is skipped. -/
def passesFilter (rule : RenameRule) (file : FileInfo) : Bool :=
  if rule.Pattern ≠ [] ∧ rule.Pattern ≠ str "*" then
    let m := filepathMatch rule.Pattern file.Name
    if m.2 = true ∨ m.1 = false then false else true
  else true

/-- The case switch of `RenameFiles` (lines 197-207). -/
def applyCase (u : CaseTables) (caseType newName : GoString) : GoString :=
  if caseType = str "lower" then ToLower u newName
  else if caseType = str "upper" then ToUpper u newName
  else if caseType = str "title" then
    let lowerName := ToLower u newName
    match lowerName with
    | [] => newName
    | b :: rest => ToUpper u (encodeRune b) ++ rest
  else newName

/-- The new base name `RenameFiles` computes for a file that passed the filter (lines
187-224), given the current value of `numberCounter`. -/
def transformName (u : CaseTables) (rule : RenameRule) (numberCounter : Int) (file : FileInfo) :
    GoString :=
  let ext := Ext file.Name
  let nameWithoutExt := TrimSuffix file.Name ext
  let newName := nameWithoutExt
  let newName := if rule.ReplaceFrom ≠ [] then ReplaceAll newName rule.ReplaceFrom rule.ReplaceTo
    else newName
  let newName := applyCase u rule.CaseType newName
  let newName := if rule.AddPrefix ≠ [] then rule.AddPrefix ++ newName else newName
  let newName := if rule.AddSuffix ≠ [] then newName ++ rule.AddSuffix else newName
  let newName := if rule.NumberStart > 0 ∨ rule.NumberStep > 0 then
      sprintfNameNumber newName numberCounter
    else newName
  newName

/-- The value of `numberCounter` after a file that passed the filter (lines 218-224). -/
def advanceCounter (rule : RenameRule) (numberCounter : Int) : Int :=
  if rule.NumberStart > 0 ∨ rule.NumberStep > 0 then
    let c := wrapInt (numberCounter + rule.NumberStep)
    if rule.NumberStep = 0 then wrapInt (c + 1) else c
  else numberCounter

/-- The collision loop (lines 236-249 and 570-583).  Arguments after the bound on the
number of rounds: `newPath`, `counter`, `errors`; the result holds their values when the
loop is left.  `none`: the bound was too small. -/
def probeLoop (fs : FileSystem) (file : FileInfo) (newName ext : GoString) :
    Nat → GoString → Nat → List GoString → Option (GoString × Nat × List GoString)
  | 0, _, _, _ => none
  | fuel + 1, newPath, counter, errors =>
    if osIsNotExist (osStat fs newPath) = true then some (newPath, counter, errors)
    else
      let newNameWithCounter := sprintfNameNumber newName counter
      let newPath := Join file.Path (newNameWithCounter ++ ext)
      let counter := counter + 1
      if counter > 1000 then some (newPath, counter, errors ++ [exhaustedMessage file.Name])
      else probeLoop fs file newName ext fuel newPath counter errors

/-- Collision loop and rename of one file (lines 235-257 of `RenameFiles`, repeated as
lines 569-591 of `AIRenameFiles`). -/
def resolveAndRename (file : FileInfo) (newName ext newPath : GoString)
    (errors : List GoString) (world : World) : Option (List GoString × World) :=
  match probeLoop world.fs file newName ext 1000 newPath 1 errors with
  | none => none
  | some (newPath, counter, errors) =>
    if counter ≤ 1000 then
      let r := osRename world.fs file.FullPath newPath
      some (match r.2 with
            | some e => errors ++ [failedMessage file.Name e]
            | none => errors,
            { fs := r.1, calls := world.calls ++ [⟨file.FullPath, newPath, r.2.isNone⟩] })
    else some (errors, world)

/-- The variables of `RenameFiles` that live across iterations of its loop. -/
structure LoopState where
  errors : List GoString
  numberCounter : Int
  world : World

/-- One iteration of the loop of `RenameFiles` (lines 177-258). -/
def renameFilesBody (u : CaseTables) (rule : RenameRule) (st : LoopState) (file : FileInfo) :
    Option LoopState :=
  if passesFilter rule file = false then some st
  else
    let ext := Ext file.Name
    let newName := transformName u rule st.numberCounter file
    let numberCounter := advanceCounter rule st.numberCounter
    let newFileName := newName ++ ext
    let newPath := Join file.Path newFileName
    if newPath = file.FullPath then some { st with numberCounter := numberCounter }
    else
      match resolveAndRename file newName ext newPath st.errors st.world with
      | none => none
      | some (errors, world) => some ⟨errors, numberCounter, world⟩

/-- What a batch operation hands back: the `[]string` (nil is the empty list), the
`error` (nil is `none`), and the world it leaves behind. -/
structure RenameResult where
  errors : List GoString
  err : Option GoString
  world : World

/-- The closing lines of both batch operations (lines 260-264 and 594-598). -/
def finish (errors : List GoString) (world : World) : RenameResult :=
  if errors.length > 0 then ⟨errors, some (str "部分文件重命名失败"), world⟩
  else ⟨[], none, world⟩

/-- Go `App.RenameFiles` (lines 173-265). -/
def RenameFiles (u : CaseTables) (files : List FileInfo) (rule : RenameRule) (world : World) :
    Option RenameResult :=
  match files.foldlM (renameFilesBody u rule) ⟨[], rule.NumberStart, world⟩ with
  | none => none
  | some st => some (finish st.errors st.world)

/-- One iteration of the loop of `AIRenameFiles` (lines 556-592); the second component
of the pair is `newNames[i]`. -/
def aiRenameBody (st : List GoString × World) (entry : FileInfo × GoString) :
    Option (List GoString × World) :=
  let file := entry.1
  let ext := Ext file.Name
  let newFileName := entry.2 ++ ext
  let newPath := Join file.Path newFileName
  if newPath = file.FullPath then some st
  else resolveAndRename file entry.2 ext newPath st.1 st.2

/-- The error text `fmt.Errorf("文件数量(%d)与新文件名数量(%d)不匹配", ...)` (line 551). -/
def countMismatch (nFiles nNames : Nat) : GoString :=
  str "文件数量(" ++ itoa nFiles ++ str ")与新文件名数量(" ++ itoa nNames ++ str ")不匹配"

/-- Go `App.AIRenameFiles` (lines 549-599). -/
def AIRenameFiles (files : List FileInfo) (newNames : List GoString) (world : World) :
    Option RenameResult :=
  if files.length ≠ newNames.length then
    some ⟨[], some (countMismatch files.length newNames.length), world⟩
  else
    match (files.zip newNames).foldlM aiRenameBody ([], world) with
    | none => none
    | some st => some (finish st.1 st.2)

/-! ## Notions used to state the properties -/

/-- The collision sequence of a file with directory `file.Path`, desired base name
`newName` and extension `ext`: candidate `0` is `d/n+e`, candidate `k` is `d/n_k+e`. -/
def candidate (file : FileInfo) (newName ext : GoString) (k : Nat) : GoString :=
  if k = 0 then Join file.Path (newName ++ ext)
  else Join file.Path (sprintfNameNumber newName k ++ ext)

/-- The first index below 1000 whose candidate path `os.Stat` reports as not existing,
if there is one. -/
def firstFree (fs : FileSystem) (file : FileInfo) (newName ext : GoString) : Option Nat :=
  (List.range 1000).find? (fun k => osIsNotExist (osStat fs (candidate file newName ext k)))

/-- What happens to one file that reaches collision resolution, told without the loop:
when `os.Stat` reports none of the 1000 candidates as not existing the exhaustion
message is recorded and nothing else changes; otherwise one `os.Rename` to the first
candidate reported as not existing is issued and its error, if any, is recorded. -/
def resolveOutcome (file : FileInfo) (newName ext : GoString) (errors : List GoString)
    (world : World) : List GoString × World :=
  match firstFree world.fs file newName ext with
  | none => (errors ++ [exhaustedMessage file.Name], world)
  | some k =>
    let r := osRename world.fs file.FullPath (candidate file newName ext k)
    (errors ++ (r.2.map (failedMessage file.Name)).toList,
      { fs := r.1,
        calls := world.calls ++ [⟨file.FullPath, candidate file newName ext k, r.2.isNone⟩] })

/-- The message a file that reaches collision resolution contributes to the error list
when it fails (collision exhaustion or a failed rename call); `none` when it succeeds. -/
def fileFailure (fs : FileSystem) (file : FileInfo) (newName ext : GoString) : Option GoString :=
  match firstFree fs file newName ext with
  | none => some (exhaustedMessage file.Name)
  | some k => (osRename fs file.FullPath (candidate file newName ext k)).2.map
      (failedMessage file.Name)

/-- One iteration of the loop of `RenameFiles`, told with `resolveOutcome` in place of
the collision loop. -/
def renameStep (u : CaseTables) (rule : RenameRule) (st : LoopState) (file : FileInfo) :
    LoopState :=
  if passesFilter rule file = false then st
  else if Join file.Path (transformName u rule st.numberCounter file ++ Ext file.Name)
      = file.FullPath then
    { st with numberCounter := advanceCounter rule st.numberCounter }
  else
    ⟨(resolveOutcome file (transformName u rule st.numberCounter file) (Ext file.Name)
        st.errors st.world).1,
      advanceCounter rule st.numberCounter,
      (resolveOutcome file (transformName u rule st.numberCounter file) (Ext file.Name)
        st.errors st.world).2⟩

/-- One iteration of the loop of `AIRenameFiles`, told with `resolveOutcome`. -/
def aiStep (st : List GoString × World) (entry : FileInfo × GoString) : List GoString × World :=
  if Join entry.1.Path (entry.2 ++ Ext entry.1.Name) = entry.1.FullPath then st
  else resolveOutcome entry.1 entry.2 (Ext entry.1.Name) st.1 st.2

/-- The loop states of a run: `Run body s items states t` says that starting in state
`s` the loop body handled every item in turn, `states` lists the state each item was
handled in, and `t` is the state after the last item. -/
inductive Run {σ α : Type} (body : σ → α → Option σ) : σ → List α → List σ → σ → Prop
  | nil (s : σ) : Run body s [] [] s
  | cons {s s' t : σ} {a : α} {items : List α} {states : List σ} :
      body s a = some s' → Run body s' items states t → Run body s (a :: items) (s :: states) t

/-- The message a file contributes to the error list of `RenameFiles` when it is handled
in loop state `st`: it must pass the filter and not be a no-op, and then fail by
collision exhaustion or by a failed rename call. -/
def renameFailure (u : CaseTables) (rule : RenameRule) (st : LoopState) (file : FileInfo) :
    Option GoString :=
  if passesFilter rule file = true ∧
      Join file.Path (transformName u rule st.numberCounter file ++ Ext file.Name)
        ≠ file.FullPath then
    fileFailure st.world.fs file (transformName u rule st.numberCounter file) (Ext file.Name)
  else none

/-- The message a file contributes to the error list of `AIRenameFiles` when it is
handled in loop state `st`. -/
def aiFailure (st : List GoString × World) (entry : FileInfo × GoString) : Option GoString :=
  if Join entry.1.Path (entry.2 ++ Ext entry.1.Name) ≠ entry.1.FullPath then
    fileFailure st.2.fs entry.1 entry.2 (Ext entry.1.Name)
  else none

/-- The effect of a logged rename call on the filesystem: a successful call removes
`old` and creates `new`, a failed one changes nothing. -/
def applyCall (fs : FileSystem) (c : RenameCall) : FileSystem :=
  if c.ok = true then
    { fs with exist := fun p => if p = c.new then true else if p = c.old then false
                                else fs.exist p }
  else fs

/-- A sequence of rename calls each of which succeeded, found its source present and
its target absent at the moment it was issued, starting from filesystem `fs`. -/
def CleanRun : FileSystem → List RenameCall → Prop
  | _, [] => True
  | fs, c :: rest =>
    c.ok = true ∧ fs.exist c.old = true ∧ fs.exist c.new = false ∧ CleanRun (applyCall fs c) rest

/-- The planned entries of a `RenameFiles` batch: the files that pass the filter and
are not dropped as a no-op, in input order; the first argument is `numberCounter`. -/
def plannedRename (u : CaseTables) (rule : RenameRule) : Int → List FileInfo → List FileInfo
  | _, [] => []
  | c, f :: rest =>
    if passesFilter rule f = false then plannedRename u rule c rest
    else if Join f.Path (transformName u rule c f ++ Ext f.Name) = f.FullPath then
      plannedRename u rule (advanceCounter rule c) rest
    else f :: plannedRename u rule (advanceCounter rule c) rest

/-- The planned entries of an `AIRenameFiles` batch: the files whose new path differs
from their current one, in input order. -/
def plannedAI (entries : List (FileInfo × GoString)) : List FileInfo :=
  (entries.filter (fun e => decide (Join e.1.Path (e.2 ++ Ext e.1.Name) ≠ e.1.FullPath))).map
    (fun e => e.1)

/-- The files for which a loop issues collision resolution, along a run from state `s`:
`plan s a` names the file when item `a` is planned in state `s`. -/
def plannedAlong {σ α : Type} (step : σ → α → σ) (plan : σ → α → Option FileInfo) :
    σ → List α → List FileInfo
  | _, [] => []
  | s, a :: items => (plan s a).toList ++ plannedAlong step plan (step s a) items

/-- What an empty error list guarantees about a batch that took the world from `before`
to `after` with the given planned entries: one rename call was issued per planned entry,
in order and from that entry's path, every call succeeded, and afterwards the source of
a call no longer exists unless a later call of the batch was renamed onto it, while its
target exists unless a later call of the batch renamed it away. -/
def EmptyListGuarantee (before after : World) (planned : List FileInfo) : Prop :=
  ∃ newCalls : List RenameCall,
    after.calls = before.calls ++ newCalls ∧
    newCalls.map (fun c => c.old) = planned.map (fun f => f.FullPath) ∧
    (∀ c ∈ newCalls, c.ok = true) ∧
    ∀ pre c post, newCalls = pre ++ c :: post →
      ((∀ d ∈ post, d.new ≠ c.old) → after.fs.exist c.old = false) ∧
      ((∀ d ∈ post, d.old ≠ c.new) → after.fs.exist c.new = true)

/-- The amount by which the numbering counter moves per matched file: `NumberStep`, or
1 when `NumberStep` is zero. -/
def effectiveStep (rule : RenameRule) : Int :=
  if rule.NumberStep = 0 then 1 else rule.NumberStep

/-- Title case as the specification words it, rune by rune: the uppercase of the first
character followed by the lowercase of the remaining characters. -/
def titleCaseSpec (u : CaseTables) (name : GoString) : GoString :=
  match runes name with
  | [] => []
  | r :: rest => encodeRune (unicodeToUpper u r) ++ rest.flatMap (fun c => encodeRune (unicodeToLower u c))

/-- The stacks `filepath.Clean` builds (last element first): every element is a real
name or `..`, none holds a separator, and `..` occurs only in a relative path with
nothing but `..` below it. -/
def NormalStack (rooted : Bool) : List GoString → Prop
  | [] => True
  | c :: below =>
    c ≠ [] ∧ c ≠ [0x2E] ∧ sep ∉ c ∧
      (c = [0x2E, 0x2E] → rooted = false ∧ ∀ x ∈ below, x = [0x2E, 0x2E]) ∧
      NormalStack rooted below

/-- A file name that stays in its directory when joined to it: not empty, not `.`, not
`..`, and free of separators. -/
def PlainName (name : GoString) : Prop :=
  name ≠ [] ∧ name ≠ [0x2E] ∧ name ≠ [0x2E, 0x2E] ∧ sep ∉ name

/-- The trace a failing file leaves in a batch: `full` is what the batch makes of `base`
when it holds the failing file (message `m`, path `old`) followed by other files,
`without` what it makes of `base` when these other files follow directly.  The
filesystem ends the same, the other files contribute the same messages and the same
rename calls, and the failing file adds only its message and, when its rename call
failed, that one failed call. -/
def DiffersOnlyByFailure (m old : GoString) (base full without : List GoString × World) :
    Prop :=
  full.2.fs = without.2.fs ∧
  ∃ (E : List GoString) (C cf : List RenameCall),
    without.1 = base.1 ++ E ∧ full.1 = base.1 ++ m :: E ∧
    without.2.calls = base.2.calls ++ C ∧ full.2.calls = base.2.calls ++ cf ++ C ∧
    (cf = [] ∨ ∃ target, cf = [⟨old, target, false⟩])

theorem candidate_succ (file : FileInfo) (newName ext : GoString) (j : Nat) :
    candidate file newName ext (j + 1)
      = Join file.Path (sprintfNameNumber newName ((j + 1 : Nat) : Int) ++ ext) := by
  simp [candidate]

/-- In this model a path that `os.Stat` reports as not existing holds no file. -/
theorem exist_of_notExist {fs : FileSystem} {p : GoString}
    (h : osIsNotExist (osStat fs p) = true) : fs.exist p = false := by
  unfold osStat at h
  by_cases h1 : fs.statFails p = true
  · simp [h1, osIsNotExist] at h
  · by_cases h2 : fs.exist p = true
    · simp [h1, h2, osIsNotExist] at h
    · simpa using h2

/-- The loop leaves at the first candidate reported as not existing: entered at
candidate `j` with no candidate from `j` up to `k` reported so and candidate `k`
reported so, it returns candidate `k` with `counter = k + 1` and the error list
untouched. -/
theorem probeLoop_found (fs : FileSystem) (file : FileInfo) (newName ext : GoString)
    (errors : List GoString) (k : Nat) (hk : k < 1000)
    (hfree : osIsNotExist (osStat fs (candidate file newName ext k)) = true) :
    ∀ (fuel j : Nat), j ≤ k → k < j + fuel →
      (∀ i, j ≤ i → i < k → osIsNotExist (osStat fs (candidate file newName ext i)) = false) →
      probeLoop fs file newName ext fuel (candidate file newName ext j) (j + 1) errors
        = some (candidate file newName ext k, k + 1, errors) := by
  intro fuel
  induction fuel with
  | zero => intro j hjk hfuel _; omega
  | succ fuel ih =>
    intro j hjk hfuel htaken
    rcases Nat.eq_or_lt_of_le hjk with hEq | hLt
    · subst hEq
      simp [probeLoop, hfree]
    · have hj : osIsNotExist (osStat fs (candidate file newName ext j)) = false :=
        htaken j (Nat.le_refl _) hLt
      have hcount : ¬ (j + 1 + 1 > 1000) := by omega
      rw [probeLoop]
      simp only [hj, Bool.false_eq_true, if_false, hcount]
      rw [← candidate_succ]
      exact ih (j + 1) hLt (by omega) (fun i hi hik => htaken i (by omega) hik)

/-- With no candidate from `j` to 999 reported as not existing the loop gives up after
candidate 999, leaving `counter = 1001` and the exhaustion message appended. -/
theorem probeLoop_exhausted (fs : FileSystem) (file : FileInfo) (newName ext : GoString)
    (errors : List GoString) :
    ∀ (fuel j : Nat), j < 1000 → 1000 ≤ j + fuel →
      (∀ i, j ≤ i → i < 1000 →
        osIsNotExist (osStat fs (candidate file newName ext i)) = false) →
      probeLoop fs file newName ext fuel (candidate file newName ext j) (j + 1) errors
        = some (candidate file newName ext 1000, 1001, errors ++ [exhaustedMessage file.Name]) := by
  intro fuel
  induction fuel with
  | zero => intro j hj hfuel _; omega
  | succ fuel ih =>
    intro j hj hfuel htaken
    have hjt : osIsNotExist (osStat fs (candidate file newName ext j)) = false :=
      htaken j (Nat.le_refl _) hj
    rw [probeLoop]
    simp only [hjt, Bool.false_eq_true, if_false]
    rw [← candidate_succ]
    by_cases hlast : j + 1 + 1 > 1000
    · have hj999 : j = 999 := by omega
      subst hj999
      simp
    · simp only [hlast, if_false]
      exact ih (j + 1) (by omega) (by omega) (fun i hi hik => htaken i (by omega) hik)

theorem firstFree_some {fs : FileSystem} {file : FileInfo} {newName ext : GoString} {k : Nat}
    (h : firstFree fs file newName ext = some k) :
    k < 1000 ∧ osIsNotExist (osStat fs (candidate file newName ext k)) = true ∧
      ∀ i, i < k → osIsNotExist (osStat fs (candidate file newName ext i)) = false := by
  unfold firstFree at h
  rw [List.find?_range_eq_some] at h
  obtain ⟨h1, h2, h3⟩ := h
  refine ⟨List.mem_range.mp h2, h1, ?_⟩
  intro i hi
  have := h3 i hi
  simpa using this

theorem firstFree_none {fs : FileSystem} {file : FileInfo} {newName ext : GoString}
    (h : firstFree fs file newName ext = none) :
    ∀ i, i < 1000 → osIsNotExist (osStat fs (candidate file newName ext i)) = false := by
  unfold firstFree at h
  rw [List.find?_range_eq_none] at h
  intro i hi
  have := h i hi
  simpa using this

/-- The loop-and-rename block always returns, and what it returns is `resolveOutcome`. -/
theorem resolveAndRename_eq (file : FileInfo) (newName ext : GoString) (errors : List GoString)
    (world : World) :
    resolveAndRename file newName ext (Join file.Path (newName ++ ext)) errors world
      = some (resolveOutcome file newName ext errors world) := by
  have h0 : Join file.Path (newName ++ ext) = candidate file newName ext 0 := by simp [candidate]
  unfold resolveAndRename resolveOutcome
  rw [h0]
  cases hff : firstFree world.fs file newName ext with
  | none =>
    have hall := firstFree_none hff
    rw [probeLoop_exhausted world.fs file newName ext errors 1000 0 (by omega) (by omega)
      (fun i _ hi => hall i hi)]
    simp
  | some k =>
    obtain ⟨hk, hfree, htaken⟩ := firstFree_some hff
    rw [probeLoop_found world.fs file newName ext errors k hk hfree 1000 0 (by omega) (by omega)
      (fun i _ hi => htaken i hi)]
    have hle : k + 1 ≤ 1000 := by omega
    simp only [hle, if_true]
    cases hr : (osRename world.fs file.FullPath (candidate file newName ext k)).2 <;> simp

/-! ## Batches as folds of the per-file step -/

theorem foldlM_total {σ α : Type} (g : σ → α → Option σ) (f : σ → α → σ)
    (h : ∀ s a, g s a = some (f s a)) (l : List α) (s : σ) :
    l.foldlM g s = some (l.foldl f s) := by
  induction l generalizing s with
  | nil => rfl
  | cons a l ih => simp [List.foldlM_cons, h, ih]

theorem renameFilesBody_eq (u : CaseTables) (rule : RenameRule) (st : LoopState)
    (file : FileInfo) : renameFilesBody u rule st file = some (renameStep u rule st file) := by
  unfold renameFilesBody renameStep
  by_cases hp : passesFilter rule file = false
  · simp [hp]
  · simp only [hp, if_false]
    by_cases hn : Join file.Path (transformName u rule st.numberCounter file ++ Ext file.Name)
        = file.FullPath
    · simp [hn]
    · simp only [hn, if_false]
      rw [resolveAndRename_eq]
      simp

theorem aiRenameBody_eq (st : List GoString × World) (entry : FileInfo × GoString) :
    aiRenameBody st entry = some (aiStep st entry) := by
  unfold aiRenameBody aiStep
  by_cases hn : Join entry.1.Path (entry.2 ++ Ext entry.1.Name) = entry.1.FullPath
  · simp [hn]
  · simp only [hn, if_false]
    rw [resolveAndRename_eq]

theorem RenameFiles_eq (u : CaseTables) (files : List FileInfo) (rule : RenameRule)
    (world : World) :
    RenameFiles u files rule world
      = some (finish (files.foldl (renameStep u rule) ⟨[], rule.NumberStart, world⟩).errors
          (files.foldl (renameStep u rule) ⟨[], rule.NumberStart, world⟩).world) := by
  unfold RenameFiles
  rw [foldlM_total _ _ (renameFilesBody_eq u rule)]

theorem AIRenameFiles_eq (files : List FileInfo) (newNames : List GoString) (world : World)
    (h : files.length = newNames.length) :
    AIRenameFiles files newNames world
      = some (finish ((files.zip newNames).foldl aiStep ([], world)).1
          ((files.zip newNames).foldl aiStep ([], world)).2) := by
  unfold AIRenameFiles
  rw [foldlM_total _ _ aiRenameBody_eq]
  simp [h]

/-! ## C1: a count mismatch fails the whole operation and touches nothing -/

/-- C1. For every file list, every name list of a different length and every world,
`AIRenameFiles` returns a non-nil error, a nil per-file error list, and leaves the
filesystem and the log of rename calls exactly as they were. -/
theorem ai_count_mismatch_no_mutation (files : List FileInfo) (newNames : List GoString)
    (world : World) (h : newNames.length ≠ files.length) :
    ∃ r, AIRenameFiles files newNames world = some r ∧ r.err ≠ none ∧ r.errors = [] ∧
      r.world = world := by
  have h' : files.length ≠ newNames.length := fun e => h e.symm
  exact ⟨⟨[], some (countMismatch files.length newNames.length), world⟩,
    by simp [AIRenameFiles, h'], by simp, rfl, rfl⟩

theorem ai_count_mismatch_witness :
    ∃ r, AIRenameFiles [⟨str "/d", str "a.txt", false, str "/d/a.txt"⟩] []
        ⟨fsOf [str "/d/a.txt"], []⟩ = some r ∧ r.err ≠ none ∧ r.errors = [] ∧
      r.world = ⟨fsOf [str "/d/a.txt"], []⟩ :=
  ai_count_mismatch_no_mutation [⟨str "/d", str "a.txt", false, str "/d/a.txt"⟩] []
    ⟨fsOf [str "/d/a.txt"], []⟩ (by decide)

/-! ## C2: collision resolution -/

set_option maxRecDepth 8000 in
theorem failed_ne_exhausted (name e : GoString) : failedMessage name e ≠ exhaustedMessage name := by
  intro h
  have h2 := congrArg List.head? h
  revert h2
  simp only [failedMessage, exhaustedMessage]
  have e1 : str "重命名 " = 0xE9 :: [0x87, 0x8D, 0xE5, 0x91, 0xBD, 0xE5, 0x90, 0x8D, 0x20] := by decide
  have e2 : str "无法重命名 " = 0xE6 :: [0x97, 0xA0, 0xE6, 0xB3, 0x95, 0xE9, 0x87, 0x8D, 0xE5, 0x91,
    0xBD, 0xE5, 0x90, 0x8D, 0x20] := by decide
  rw [e1, e2]
  simp

theorem resolveOutcome_none {file : FileInfo} {newName ext : GoString} {world : World}
    (errors : List GoString) (h : firstFree world.fs file newName ext = none) :
    resolveOutcome file newName ext errors world
      = (errors ++ [exhaustedMessage file.Name], world) := by
  unfold resolveOutcome
  rw [h]

theorem resolveOutcome_some {file : FileInfo} {newName ext : GoString} {world : World} {k : Nat}
    (errors : List GoString) (h : firstFree world.fs file newName ext = some k) :
    resolveOutcome file newName ext errors world
      = (errors ++ ((osRename world.fs file.FullPath (candidate file newName ext k)).2.map
            (failedMessage file.Name)).toList,
          { fs := (osRename world.fs file.FullPath (candidate file newName ext k)).1,
            calls := world.calls ++ [⟨file.FullPath, candidate file newName ext k,
              (osRename world.fs file.FullPath (candidate file newName ext k)).2.isNone⟩] }) := by
  unfold resolveOutcome
  rw [h]

theorem osRename_fs_of_error {fs : FileSystem} {old new e : GoString}
    (h : (osRename fs old new).2 = some e) : (osRename fs old new).1 = fs := by
  unfold osRename at h ⊢
  by_cases hex : fs.exist old = false
  · simp [hex]
  · simp only [hex, if_false] at h ⊢
    cases hr : fs.refuse old new with
    | some reason => simp
    | none => simp [hr] at h

theorem resolveOutcome_errors (file : FileInfo) (newName ext : GoString)
    (errors : List GoString) (world : World) :
    (resolveOutcome file newName ext errors world).1
      = errors ++ (fileFailure world.fs file newName ext).toList := by
  unfold fileFailure
  cases hff : firstFree world.fs file newName ext with
  | none => rw [resolveOutcome_none errors hff]; rfl
  | some k => rw [resolveOutcome_some errors hff]

theorem resolveOutcome_fs_of_failure {file : FileInfo} {newName ext m : GoString}
    (errors : List GoString) {world : World}
    (h : fileFailure world.fs file newName ext = some m) :
    (resolveOutcome file newName ext errors world).2.fs = world.fs := by
  unfold fileFailure at h
  cases hff : firstFree world.fs file newName ext with
  | none => rw [resolveOutcome_none errors hff]
  | some k =>
    rw [resolveOutcome_some errors hff]
    rw [hff] at h
    cases hr : (osRename world.fs file.FullPath (candidate file newName ext k)).2 with
    | none => simp [hr] at h
    | some e => exact osRename_fs_of_error hr

theorem fileFailure_names_file {fs : FileSystem} {file : FileInfo} {newName ext m : GoString}
    (h : fileFailure fs file newName ext = some m) : file.Name <:+: m := by
  unfold fileFailure at h
  cases hff : firstFree fs file newName ext with
  | none =>
    rw [hff] at h
    simp only [Option.some.injEq] at h
    subst h
    exact ⟨str "无法重命名 ", str ": 目标文件已存在", rfl⟩
  | some k =>
    rw [hff] at h
    cases hr : (osRename fs file.FullPath (candidate file newName ext k)).2 with
    | none => simp [hr] at h
    | some e =>
      simp only [hr, Option.map_some', Option.some.injEq] at h
      subst h
      exact ⟨str "重命名 ", str " 失败: " ++ e, by simp [failedMessage]⟩

theorem renameStep_failure (u : CaseTables) (rule : RenameRule) (st : LoopState)
    (file : FileInfo) :
    (renameStep u rule st file).errors
        = st.errors ++ (renameFailure u rule st file).toList ∧
      (∀ m, renameFailure u rule st file = some m →
        (renameStep u rule st file).world.fs = st.world.fs ∧ file.Name <:+: m) := by
  unfold renameStep renameFailure
  by_cases hp : passesFilter rule file = false
  · simp [hp]
  · have hp' : passesFilter rule file = true := by simpa using hp
    by_cases hn : Join file.Path (transformName u rule st.numberCounter file ++ Ext file.Name)
        = file.FullPath
    · simp [hp', hn]
    · simp only [hp', hn, Bool.true_eq_false, if_false, ne_eq, not_false_eq_true, and_self,
        if_true]
      refine ⟨resolveOutcome_errors _ _ _ _ _, ?_⟩
      intro m hm
      exact ⟨resolveOutcome_fs_of_failure st.errors hm, fileFailure_names_file hm⟩

theorem aiStep_failure (st : List GoString × World) (entry : FileInfo × GoString) :
    (aiStep st entry).1 = st.1 ++ (aiFailure st entry).toList ∧
      (∀ m, aiFailure st entry = some m →
        (aiStep st entry).2.fs = st.2.fs ∧ entry.1.Name <:+: m) := by
  unfold aiStep aiFailure
  by_cases hn : Join entry.1.Path (entry.2 ++ Ext entry.1.Name) = entry.1.FullPath
  · simp [hn]
  · simp only [hn, if_false, ne_eq, not_false_eq_true, if_true]
    refine ⟨resolveOutcome_errors _ _ _ _ _, ?_⟩
    intro m hm
    exact ⟨resolveOutcome_fs_of_failure st.1 hm, fileFailure_names_file hm⟩

/-- A loop whose body always returns and appends to the error list exactly the failure
message of the item handled runs through every item, and the error list it ends with is
the initial one followed by the messages of the failing items, in order. -/
theorem run_collects_failures {σ α : Type} (body : σ → α → Option σ)
    (errs : σ → List GoString) (failure : σ → α → Option GoString)
    (hbody : ∀ s a, ∃ s', body s a = some s' ∧ errs s' = errs s ++ (failure s a).toList) :
    ∀ (items : List α) (s : σ), ∃ states t, Run body s items states t ∧
      items.foldlM body s = some t ∧
      errs t = errs s ++ (states.zip items).filterMap (fun p => failure p.1 p.2) := by
  intro items
  induction items with
  | nil => intro s; exact ⟨[], s, Run.nil s, rfl, by simp⟩
  | cons a items ih =>
    intro s
    obtain ⟨s', hs', herr⟩ := hbody s a
    obtain ⟨states, t, hrun, hfold, herrs⟩ := ih s'
    refine ⟨s :: states, t, Run.cons hs' hrun, by simp [List.foldlM_cons, hs', hfold], ?_⟩
    rw [herrs, herr]
    cases hf : failure s a <;> simp [hf]

theorem finish_err_iff (errors : List GoString) (world : World) :
    ((finish errors world).err ≠ none ↔ (finish errors world).errors ≠ []) ∧
      (finish errors world).errors = errors ∧ (finish errors world).world = world := by
  unfold finish
  cases errors with
  | nil => simp
  | cons e es => simp

theorem resolveOutcome_delta (file : FileInfo) (newName ext : GoString) (fs : FileSystem) :
    ∃ (dE : List GoString) (dC : List RenameCall) (fs' : FileSystem),
      ∀ (errors : List GoString) (calls : List RenameCall),
        resolveOutcome file newName ext errors ⟨fs, calls⟩
          = (errors ++ dE, ⟨fs', calls ++ dC⟩) := by
  cases hff : firstFree fs file newName ext with
  | none =>
    refine ⟨[exhaustedMessage file.Name], [], fs, ?_⟩
    intro errors calls
    have h : resolveOutcome file newName ext errors ⟨fs, calls⟩
        = (errors ++ [exhaustedMessage file.Name], ⟨fs, calls⟩) :=
      resolveOutcome_none errors hff
    rw [h]
    simp
  | some k =>
    refine ⟨((osRename fs file.FullPath (candidate file newName ext k)).2.map
        (failedMessage file.Name)).toList,
      [⟨file.FullPath, candidate file newName ext k,
        (osRename fs file.FullPath (candidate file newName ext k)).2.isNone⟩],
      (osRename fs file.FullPath (candidate file newName ext k)).1, ?_⟩
    intro errors calls
    exact @resolveOutcome_some file newName ext ⟨fs, calls⟩ k errors hff

theorem renameStep_delta (u : CaseTables) (rule : RenameRule) (file : FileInfo)
    (fs : FileSystem) (c : Int) :
    ∃ (dE : List GoString) (dC : List RenameCall) (fs' : FileSystem) (c' : Int),
      ∀ (errors : List GoString) (calls : List RenameCall),
        renameStep u rule ⟨errors, c, ⟨fs, calls⟩⟩ file
          = ⟨errors ++ dE, c', ⟨fs', calls ++ dC⟩⟩ := by
  by_cases hp : passesFilter rule file = false
  · exact ⟨[], [], fs, c, fun errors calls => by simp [renameStep, hp]⟩
  · have hp' : passesFilter rule file = true := by simpa using hp
    by_cases hn : Join file.Path (transformName u rule c file ++ Ext file.Name) = file.FullPath
    · exact ⟨[], [], fs, advanceCounter rule c, fun errors calls => by
        simp [renameStep, hp', hn]⟩
    · obtain ⟨dE, dC, fs', h⟩ := resolveOutcome_delta file (transformName u rule c file)
        (Ext file.Name) fs
      refine ⟨dE, dC, fs', advanceCounter rule c, ?_⟩
      intro errors calls
      unfold renameStep
      simp only [hp', Bool.true_eq_false, if_false, hn]
      rw [h errors calls]

/-- What the loop of `RenameFiles` adds to the error list and to the log of rename
calls, and the filesystem and counter it ends with, depend only on the filesystem and
the counter it starts from. -/
theorem rename_fold_delta (u : CaseTables) (rule : RenameRule) :
    ∀ (files : List FileInfo) (fs : FileSystem) (c : Int),
      ∃ (dE : List GoString) (dC : List RenameCall) (fs' : FileSystem) (c' : Int),
        ∀ (errors : List GoString) (calls : List RenameCall),
          files.foldl (renameStep u rule) ⟨errors, c, ⟨fs, calls⟩⟩
            = ⟨errors ++ dE, c', ⟨fs', calls ++ dC⟩⟩ := by
  intro files
  induction files with
  | nil => intro fs c; exact ⟨[], [], fs, c, fun errors calls => by simp⟩
  | cons f files ih =>
    intro fs c
    obtain ⟨dE1, dC1, fs1, c1, h1⟩ := renameStep_delta u rule f fs c
    obtain ⟨dE2, dC2, fs2, c2, h2⟩ := ih fs1 c1
    refine ⟨dE1 ++ dE2, dC1 ++ dC2, fs2, c2, ?_⟩
    intro errors calls
    rw [List.foldl_cons, h1 errors calls, h2]
    simp [List.append_assoc]

theorem aiStep_delta (entry : FileInfo × GoString) (fs : FileSystem) :
    ∃ (dE : List GoString) (dC : List RenameCall) (fs' : FileSystem),
      ∀ (errors : List GoString) (calls : List RenameCall),
        aiStep (errors, ⟨fs, calls⟩) entry = (errors ++ dE, ⟨fs', calls ++ dC⟩) := by
  by_cases hn : Join entry.1.Path (entry.2 ++ Ext entry.1.Name) = entry.1.FullPath
  · exact ⟨[], [], fs, fun errors calls => by simp [aiStep, hn]⟩
  · obtain ⟨dE, dC, fs', h⟩ := resolveOutcome_delta entry.1 entry.2 (Ext entry.1.Name) fs
    refine ⟨dE, dC, fs', ?_⟩
    intro errors calls
    unfold aiStep
    simp only [hn, if_false]
    exact h errors calls

/-- What the loop of `AIRenameFiles` adds to the error list and to the log of rename
calls, and the filesystem it ends with, depend only on the filesystem it starts from. -/
theorem ai_fold_delta :
    ∀ (entries : List (FileInfo × GoString)) (fs : FileSystem),
      ∃ (dE : List GoString) (dC : List RenameCall) (fs' : FileSystem),
        ∀ (errors : List GoString) (calls : List RenameCall),
          entries.foldl aiStep (errors, ⟨fs, calls⟩) = (errors ++ dE, ⟨fs', calls ++ dC⟩) := by
  intro entries
  induction entries with
  | nil => intro fs; exact ⟨[], [], fs, fun errors calls => by simp⟩
  | cons e entries ih =>
    intro fs
    obtain ⟨dE1, dC1, fs1, h1⟩ := aiStep_delta e fs
    obtain ⟨dE2, dC2, fs2, h2⟩ := ih fs1
    refine ⟨dE1 ++ dE2, dC1 ++ dC2, fs2, ?_⟩
    intro errors calls
    rw [List.foldl_cons, h1 errors calls, h2]
    simp [List.append_assoc]

/-- A failing file adds its message, leaves the filesystem alone, and logs at most its
own failed rename call. -/
theorem resolveOutcome_of_failure {file : FileInfo} {newName ext m : GoString}
    (errors : List GoString) {world : World}
    (h : fileFailure world.fs file newName ext = some m) :
    ∃ cf, resolveOutcome file newName ext errors world
        = (errors ++ [m], ⟨world.fs, world.calls ++ cf⟩) ∧
      (cf = [] ∨ ∃ target, cf = [⟨file.FullPath, target, false⟩]) := by
  unfold fileFailure at h
  cases hff : firstFree world.fs file newName ext with
  | none =>
    rw [hff] at h
    simp only [Option.some.injEq] at h
    subst h
    refine ⟨[], ?_, Or.inl rfl⟩
    rw [resolveOutcome_none errors hff]
    simp
  | some k =>
    rw [hff] at h
    cases hr : (osRename world.fs file.FullPath (candidate file newName ext k)).2 with
    | none => simp [hr] at h
    | some e =>
      simp only [hr, Option.map_some', Option.some.injEq] at h
      subst h
      refine ⟨[⟨file.FullPath, candidate file newName ext k, false⟩], ?_,
        Or.inr ⟨candidate file newName ext k, rfl⟩⟩
      rw [resolveOutcome_some errors hff, hr, osRename_fs_of_error hr]
      rfl

/-- The files after a failing file of `RenameFiles` are handled as if the failing file
had been passed over after taking its value from the counter. -/
theorem rename_continues (u : CaseTables) (rule : RenameRule) (st : LoopState)
    (f : FileInfo) (post : List FileInfo) (m : GoString)
    (h : renameFailure u rule st f = some m) :
    DiffersOnlyByFailure m f.FullPath (st.errors, st.world)
      ((post.foldl (renameStep u rule) (renameStep u rule st f)).errors,
        (post.foldl (renameStep u rule) (renameStep u rule st f)).world)
      ((post.foldl (renameStep u rule)
          ⟨st.errors, advanceCounter rule st.numberCounter, st.world⟩).errors,
        (post.foldl (renameStep u rule)
          ⟨st.errors, advanceCounter rule st.numberCounter, st.world⟩).world) := by
  obtain ⟨errors, c, fs, calls⟩ := st
  unfold renameFailure at h
  by_cases hc : passesFilter rule f = true ∧
      Join f.Path (transformName u rule c f ++ Ext f.Name) ≠ f.FullPath
  · simp only [hc, ne_eq, not_false_eq_true, and_self, if_true] at h
    obtain ⟨cf, hres, hcf⟩ := @resolveOutcome_of_failure f (transformName u rule c f)
      (Ext f.Name) m errors ⟨fs, calls⟩ h
    have hstep : renameStep u rule ⟨errors, c, ⟨fs, calls⟩⟩ f
        = ⟨errors ++ [m], advanceCounter rule c, ⟨fs, calls ++ cf⟩⟩ := by
      unfold renameStep
      simp only [hc.1, Bool.true_eq_false, if_false, hc.2, hres]
    obtain ⟨dE, dC, fs', c', hd⟩ := rename_fold_delta u rule post fs (advanceCounter rule c)
    rw [hstep, hd, hd]
    exact ⟨rfl, dE, dC, cf, rfl, by simp, rfl, by simp, hcf⟩
  · simp [hc] at h

/-- The files after a failing file of `AIRenameFiles` are handled as if the failing file
had not been in the batch. -/
theorem ai_continues (st : List GoString × World) (entry : FileInfo × GoString)
    (post : List (FileInfo × GoString)) (m : GoString) (h : aiFailure st entry = some m) :
    DiffersOnlyByFailure m entry.1.FullPath st
      (post.foldl aiStep (aiStep st entry)) (post.foldl aiStep st) := by
  obtain ⟨errors, fs, calls⟩ := st
  unfold aiFailure at h
  by_cases hn : Join entry.1.Path (entry.2 ++ Ext entry.1.Name) = entry.1.FullPath
  · simp [hn] at h
  · simp only [ne_eq, hn, not_false_eq_true, if_true] at h
    obtain ⟨cf, hres, hcf⟩ := @resolveOutcome_of_failure entry.1 entry.2 (Ext entry.1.Name)
      m errors ⟨fs, calls⟩ h
    have hstep : aiStep (errors, ⟨fs, calls⟩) entry = (errors ++ [m], ⟨fs, calls ++ cf⟩) := by
      unfold aiStep
      simp only [hn, if_false, hres]
    obtain ⟨dE, dC, fs', hd⟩ := ai_fold_delta post fs
    rw [hstep, hd, hd]
    exact ⟨rfl, dE, dC, cf, rfl, by simp, rfl, by simp, hcf⟩

/-- C4, as the code has it. In `RenameFiles`, and in `AIRenameFiles` called with as
many names as files, the loop body always returns and handles every file of the batch
in turn; a file that fails (collision exhaustion or a failed rename call) adds exactly
one message, which contains its name, and leaves the filesystem as it was; a file that
does not fail adds none; the returned list is the list of these messages in input
order; the returned error is non-nil exactly when that list is non-empty; and the files
after a failing file are handled exactly as they would be had the failing file been
left out of the batch (in `RenameFiles`: had it been passed over after taking its value
from the numbering counter): same filesystem in the end, same messages and same rename
calls for the other files. -/
theorem failures_collected_batch_continues (u : CaseTables) (rule : RenameRule)
    (files : List FileInfo) (newNames : List GoString) (world : World)
    (hlen : files.length = newNames.length) :
    (∀ st file, ∃ st', renameFilesBody u rule st file = some st' ∧
        st'.errors = st.errors ++ (renameFailure u rule st file).toList ∧
        ∀ m, renameFailure u rule st file = some m →
          st'.world.fs = st.world.fs ∧ file.Name <:+: m) ∧
    (∃ states t r, Run (renameFilesBody u rule) ⟨[], rule.NumberStart, world⟩ files states t ∧
        RenameFiles u files rule world = some r ∧ r.world = t.world ∧
        r.errors = (states.zip files).filterMap (fun p => renameFailure u rule p.1 p.2) ∧
        (r.err ≠ none ↔ r.errors ≠ [])) ∧
    (∀ st entry, ∃ st', aiRenameBody st entry = some st' ∧
        st'.1 = st.1 ++ (aiFailure st entry).toList ∧
        ∀ m, aiFailure st entry = some m → st'.2.fs = st.2.fs ∧ entry.1.Name <:+: m) ∧
    (∃ states t r, Run aiRenameBody ([], world) (files.zip newNames) states t ∧
        AIRenameFiles files newNames world = some r ∧ r.world = t.2 ∧
        r.errors = (states.zip (files.zip newNames)).filterMap (fun p => aiFailure p.1 p.2) ∧
        (r.err ≠ none ↔ r.errors ≠ [])) ∧
    (∀ (pre : List FileInfo) (f : FileInfo) (post : List FileInfo) (st : LoopState)
        (m : GoString),
      files = pre ++ f :: post →
      pre.foldlM (renameFilesBody u rule) ⟨[], rule.NumberStart, world⟩ = some st →
      renameFailure u rule st f = some m →
      ∃ r t0, RenameFiles u files rule world = some r ∧
        post.foldlM (renameFilesBody u rule)
          ⟨st.errors, advanceCounter rule st.numberCounter, st.world⟩ = some t0 ∧
        DiffersOnlyByFailure m f.FullPath (st.errors, st.world) (r.errors, r.world)
          (t0.errors, t0.world)) ∧
    (∀ (pre : List FileInfo) (npre : List GoString) (f : FileInfo) (n : GoString)
        (post : List FileInfo) (npost : List GoString) (st : List GoString × World)
        (m : GoString),
      files = pre ++ f :: post → newNames = npre ++ n :: npost → pre.length = npre.length →
      (pre.zip npre).foldlM aiRenameBody ([], world) = some st →
      aiFailure st (f, n) = some m →
      ∃ r r', AIRenameFiles files newNames world = some r ∧
        AIRenameFiles (pre ++ post) (npre ++ npost) world = some r' ∧
        DiffersOnlyByFailure m f.FullPath st (r.errors, r.world) (r'.errors, r'.world)) := by
  have hA : ∀ st file, ∃ st', renameFilesBody u rule st file = some st' ∧
      st'.errors = st.errors ++ (renameFailure u rule st file).toList ∧
      ∀ m, renameFailure u rule st file = some m →
        st'.world.fs = st.world.fs ∧ file.Name <:+: m := fun st file =>
    ⟨renameStep u rule st file, renameFilesBody_eq u rule st file,
      (renameStep_failure u rule st file).1, (renameStep_failure u rule st file).2⟩
  have hB : ∀ st entry, ∃ st', aiRenameBody st entry = some st' ∧
      st'.1 = st.1 ++ (aiFailure st entry).toList ∧
      ∀ m, aiFailure st entry = some m → st'.2.fs = st.2.fs ∧ entry.1.Name <:+: m :=
    fun st entry => ⟨aiStep st entry, aiRenameBody_eq st entry, (aiStep_failure st entry).1,
      (aiStep_failure st entry).2⟩
  refine ⟨hA, ?_, hB, ?_, ?_, ?_⟩
  · obtain ⟨states, t, hrun, hfold, herrs⟩ := run_collects_failures (renameFilesBody u rule)
      (fun st => st.errors) (renameFailure u rule)
      (fun s a => (hA s a).imp fun _ h => ⟨h.1, h.2.1⟩) files ⟨[], rule.NumberStart, world⟩
    have hF : RenameFiles u files rule world = some (finish t.errors t.world) := by
      unfold RenameFiles
      rw [hfold]
    obtain ⟨h1, h2, h3⟩ := finish_err_iff t.errors t.world
    refine ⟨states, t, _, hrun, hF, h3, ?_, h1⟩
    rw [h2, herrs]
    simp
  · obtain ⟨states, t, hrun, hfold, herrs⟩ := run_collects_failures aiRenameBody
      (fun st => st.1) aiFailure
      (fun s a => (hB s a).imp fun _ h => ⟨h.1, h.2.1⟩) (files.zip newNames) ([], world)
    have hF : AIRenameFiles files newNames world = some (finish t.1 t.2) := by
      unfold AIRenameFiles
      rw [hfold]
      simp [hlen]
    obtain ⟨h1, h2, h3⟩ := finish_err_iff t.1 t.2
    refine ⟨states, t, _, hrun, hF, h3, ?_, h1⟩
    rw [h2, herrs]
    simp
  · intro pre f post st m hfiles hpre hfail
    rw [foldlM_total _ _ (renameFilesBody_eq u rule)] at hpre
    simp only [Option.some.injEq] at hpre
    have hcont := rename_continues u rule st f post m hfail
    refine ⟨_, _, RenameFiles_eq u files rule world,
      foldlM_total _ _ (renameFilesBody_eq u rule) post _, ?_⟩
    obtain ⟨-, e2, e3⟩ := finish_err_iff
      (files.foldl (renameStep u rule) ⟨[], rule.NumberStart, world⟩).errors
      (files.foldl (renameStep u rule) ⟨[], rule.NumberStart, world⟩).world
    rw [e2, e3, hfiles, List.foldl_append, List.foldl_cons, hpre]
    exact hcont
  · intro pre npre f n post npost st m hfiles hnames hprelen hpre hfail
    rw [foldlM_total _ _ aiRenameBody_eq] at hpre
    simp only [Option.some.injEq] at hpre
    have hpostlen : post.length = npost.length := by
      have := hlen
      rw [hfiles, hnames] at this
      simp only [List.length_append, List.length_cons] at this
      omega
    have hlen' : (pre ++ post).length = (npre ++ npost).length := by
      simp only [List.length_append]
      omega
    have hcont := ai_continues st (f, n) (post.zip npost) m hfail
    refine ⟨_, _, AIRenameFiles_eq files newNames world hlen,
      AIRenameFiles_eq (pre ++ post) (npre ++ npost) world hlen', ?_⟩
    obtain ⟨-, e2, e3⟩ := finish_err_iff
      ((files.zip newNames).foldl aiStep ([], world)).1
      ((files.zip newNames).foldl aiStep ([], world)).2
    obtain ⟨-, e2', e3'⟩ := finish_err_iff
      (((pre ++ post).zip (npre ++ npost)).foldl aiStep ([], world)).1
      (((pre ++ post).zip (npre ++ npost)).foldl aiStep ([], world)).2
    rw [e2, e3, e2', e3']
    have hz1 : files.zip newNames = pre.zip npre ++ (f, n) :: post.zip npost := by
      rw [hfiles, hnames, List.zip_append hprelen]
      rfl
    have hz2 : (pre ++ post).zip (npre ++ npost) = pre.zip npre ++ post.zip npost :=
      List.zip_append hprelen
    rw [hz1, hz2, List.foldl_append, List.foldl_cons, List.foldl_append, hpre]
    exact hcont

set_option maxRecDepth 8000 in
theorem failures_collected_witness :
    [(⟨str "/d", str "ghost.txt", false, str "/d/ghost.txt"⟩ : FileInfo),
        ⟨str "/d", str "b.txt", false, str "/d/b.txt"⟩].length = [str "c", str "c"].length ∧
    ∃ r r', AIRenameFiles [⟨str "/d", str "ghost.txt", false, str "/d/ghost.txt"⟩,
          ⟨str "/d", str "b.txt", false, str "/d/b.txt"⟩] [str "c", str "c"]
        ⟨fsOf [str "/d/b.txt"], []⟩ = some r ∧
      AIRenameFiles ([] ++ [⟨str "/d", str "b.txt", false, str "/d/b.txt"⟩]) ([] ++ [str "c"])
        ⟨fsOf [str "/d/b.txt"], []⟩ = some r' ∧
      DiffersOnlyByFailure
        (failedMessage (str "ghost.txt")
          (linkError (str "/d/ghost.txt") (str "/d/c.txt") (str "no such file or directory")))
        (str "/d/ghost.txt") ([], ⟨fsOf [str "/d/b.txt"], []⟩) (r.errors, r.world)
        (r'.errors, r'.world) :=
  ⟨by decide, (failures_collected_batch_continues latin1Tables RenameRule.zero
    [⟨str "/d", str "ghost.txt", false, str "/d/ghost.txt"⟩,
      ⟨str "/d", str "b.txt", false, str "/d/b.txt"⟩] [str "c", str "c"]
    ⟨fsOf [str "/d/b.txt"], []⟩ (by decide)).2.2.2.2.2 []
    [] ⟨str "/d", str "ghost.txt", false, str "/d/ghost.txt"⟩ (str "c")
    [⟨str "/d", str "b.txt", false, str "/d/b.txt"⟩] [str "c"] ([], ⟨fsOf [str "/d/b.txt"], []⟩)
    _ rfl rfl rfl rfl (by decide)⟩

/-- C4 fails as stated. (1) What happens to a later file depends on whether an earlier
file failed: `AIRenameFiles` on `ghost.txt, b.txt` with names `c, c` renames `b.txt` to
`c.txt` when `ghost.txt` is missing and its rename fails, and to `c_1.txt` when
`ghost.txt` is there and its rename succeeds.  (2) Called with one file and no name,
`AIRenameFiles` returns a non-nil error with an empty error list. -/
theorem later_file_depends_on_earlier_failure :
    (AIRenameFiles [⟨str "/d", str "ghost.txt", false, str "/d/ghost.txt"⟩,
          ⟨str "/d", str "b.txt", false, str "/d/b.txt"⟩] [str "c", str "c"]
        ⟨fsOf [str "/d/b.txt"], []⟩).map (fun r => (r.errors.length, r.world.calls))
      = some (1, [⟨str "/d/ghost.txt", str "/d/c.txt", false⟩,
          ⟨str "/d/b.txt", str "/d/c.txt", true⟩]) ∧
    (AIRenameFiles [⟨str "/d", str "ghost.txt", false, str "/d/ghost.txt"⟩,
          ⟨str "/d", str "b.txt", false, str "/d/b.txt"⟩] [str "c", str "c"]
        ⟨fsOf [str "/d/ghost.txt", str "/d/b.txt"], []⟩).map
        (fun r => (r.errors.length, r.world.calls))
      = some (0, [⟨str "/d/ghost.txt", str "/d/c.txt", true⟩,
          ⟨str "/d/b.txt", str "/d/c_1.txt", true⟩]) ∧
    (AIRenameFiles [⟨str "/d", str "a.txt", false, str "/d/a.txt"⟩] []
        ⟨fsOf [str "/d/a.txt"], []⟩).map (fun r => (r.err.isSome, r.errors))
      = some (true, []) := by
  refine ⟨by decide, by decide, by decide⟩

/-! ## C3: what an empty error list guarantees -/

theorem osRename_ok {fs : FileSystem} {old new : GoString}
    (h : (osRename fs old new).2 = none) :
    fs.exist old = true ∧ (osRename fs old new).1 = applyCall fs ⟨old, new, true⟩ := by
  unfold osRename at h ⊢
  by_cases hex : fs.exist old = false
  · simp [hex] at h
  · have hex' : fs.exist old = true := by simpa using hex
    refine ⟨hex', ?_⟩
    simp only [hex, if_false] at h ⊢
    cases hr : fs.refuse old new with
    | some reason => simp [hr] at h
    | none => simp [applyCall]

theorem exist_false_preserved (p : GoString) :
    ∀ (post : List RenameCall) (fs : FileSystem), (∀ d ∈ post, d.new ≠ p) →
      fs.exist p = false → (post.foldl applyCall fs).exist p = false := by
  intro post
  induction post with
  | nil => intro fs _ h; exact h
  | cons d post ih =>
    intro fs hne h
    have hd : p ≠ d.new := fun e => hne d (List.mem_cons_self _ _) e.symm
    refine ih _ (fun d' hd' => hne d' (List.mem_cons_of_mem _ hd')) ?_
    unfold applyCall
    by_cases hok : d.ok = true
    · simp only [hok, if_true, if_neg hd]
      by_cases hold : p = d.old
      · rw [if_pos hold]
      · rw [if_neg hold]; exact h
    · simp [hok, h]

theorem exist_true_preserved (p : GoString) :
    ∀ (post : List RenameCall) (fs : FileSystem), (∀ d ∈ post, d.old ≠ p) →
      fs.exist p = true → (post.foldl applyCall fs).exist p = true := by
  intro post
  induction post with
  | nil => intro fs _ h; exact h
  | cons d post ih =>
    intro fs hne h
    have hd : p ≠ d.old := fun e => hne d (List.mem_cons_self _ _) e.symm
    refine ih _ (fun d' hd' => hne d' (List.mem_cons_of_mem _ hd')) ?_
    unfold applyCall
    by_cases hok : d.ok = true
    · simp only [hok, if_true]
      by_cases hnew : p = d.new
      · rw [if_pos hnew]
      · rw [if_neg hnew, if_neg hd]; exact h
    · simp [hok, h]

theorem cleanRun_split :
    ∀ (pre rest : List RenameCall) (fs : FileSystem), CleanRun fs (pre ++ rest) →
      CleanRun (pre.foldl applyCall fs) rest := by
  intro pre
  induction pre with
  | nil => intro rest fs h; exact h
  | cons c pre ih =>
    intro rest fs h
    exact ih rest _ h.2.2.2

theorem cleanRun_all_ok :
    ∀ (calls : List RenameCall) (fs : FileSystem), CleanRun fs calls → ∀ c ∈ calls, c.ok = true := by
  intro calls
  induction calls with
  | nil => intro fs _ c hc; cases hc
  | cons d calls ih =>
    intro fs h c hc
    rcases List.mem_cons.mp hc with rfl | hc'
    · exact h.1
    · exact ih _ h.2.2.2 c hc'

/-- After a clean run the source of a call is gone unless a later call targeted it, and
its target is there unless a later call moved it away. -/
theorem cleanRun_final (fs : FileSystem) (pre post : List RenameCall) (c : RenameCall)
    (h : CleanRun fs (pre ++ c :: post)) :
    ((∀ d ∈ post, d.new ≠ c.old) → ((pre ++ c :: post).foldl applyCall fs).exist c.old = false) ∧
    ((∀ d ∈ post, d.old ≠ c.new) → ((pre ++ c :: post).foldl applyCall fs).exist c.new = true) := by
  have hc := cleanRun_split pre (c :: post) fs h
  obtain ⟨hok, hold, hnew, -⟩ := hc
  have hne : c.old ≠ c.new := by
    intro e
    rw [e, hnew] at hold
    cases hold
  rw [List.foldl_append, List.foldl_cons]
  constructor
  · intro hpost
    apply exist_false_preserved _ _ _ hpost
    simp [applyCall, hok, hne]
  · intro hpost
    apply exist_true_preserved _ _ _ hpost
    simp [applyCall, hok]

theorem fileFailure_none {fs : FileSystem} {file : FileInfo} {newName ext : GoString}
    (h : fileFailure fs file newName ext = none) :
    ∃ k, firstFree fs file newName ext = some k ∧
      (osRename fs file.FullPath (candidate file newName ext k)).2 = none := by
  unfold fileFailure at h
  cases hff : firstFree fs file newName ext with
  | none => simp [hff] at h
  | some k =>
    refine ⟨k, rfl, ?_⟩
    rw [hff] at h
    simpa using h

/-- A loop built from `resolveOutcome` that ends with an empty error list has issued one
successful rename call per planned file, in order, each with its source present and its
target absent at that moment. -/
theorem fold_clean {σ α : Type} (step : σ → α → σ) (errs : σ → List GoString)
    (wld : σ → World) (plan : σ → α → Option FileInfo)
    (hstep : ∀ s a, (plan s a = none ∧ errs (step s a) = errs s ∧ wld (step s a) = wld s) ∨
      (∃ f n e, plan s a = some f ∧ errs (step s a) = (resolveOutcome f n e (errs s) (wld s)).1 ∧
        wld (step s a) = (resolveOutcome f n e (errs s) (wld s)).2)) :
    ∀ (items : List α) (s : σ), errs (items.foldl step s) = [] →
      errs s = [] ∧ ∃ newCalls,
        (wld (items.foldl step s)).calls = (wld s).calls ++ newCalls ∧
        newCalls.map (fun c => c.old) = (plannedAlong step plan s items).map (fun f => f.FullPath) ∧
        CleanRun (wld s).fs newCalls ∧
        (wld (items.foldl step s)).fs = newCalls.foldl applyCall (wld s).fs := by
  intro items
  induction items with
  | nil =>
    intro s h
    exact ⟨h, [], by simp, by simp [plannedAlong], trivial, rfl⟩
  | cons a items ih =>
    intro s h
    rw [List.foldl_cons] at h ⊢
    obtain ⟨herr', newCalls, hcalls, hplanned, hclean, hfs⟩ := ih (step s a) h
    rcases hstep s a with ⟨hplan, he, hw⟩ | ⟨f, n, e, hplan, he, hw⟩
    · refine ⟨by rw [← he]; exact herr', newCalls, ?_, ?_, ?_, ?_⟩
      · rw [hcalls, hw]
      · rw [hplanned]; simp [plannedAlong, hplan]
      · rw [← hw]; exact hclean
      · rw [hfs, hw]
    · rw [resolveOutcome_errors] at he
      rw [he] at herr'
      have herrs : errs s = [] := (List.append_eq_nil.mp herr').1
      have hnone : fileFailure (wld s).fs f n e = none := by
        have := (List.append_eq_nil.mp herr').2
        cases hf : fileFailure (wld s).fs f n e with
        | none => rfl
        | some m => simp [hf] at this
      obtain ⟨k, hff, hren⟩ := fileFailure_none hnone
      obtain ⟨hk, hstat, -⟩ := firstFree_some hff
      have hfree := exist_of_notExist hstat
      obtain ⟨hold, hfs'⟩ := osRename_ok hren
      rw [resolveOutcome_some (errs s) hff] at hw
      simp only [hren, hfs', Option.isNone_none] at hw
      refine ⟨herrs, ⟨f.FullPath, candidate f n e k, true⟩ :: newCalls, ?_, ?_, ?_, ?_⟩
      · rw [hcalls, hw]; simp
      · simp [plannedAlong, hplan, hplanned]
      · refine ⟨rfl, hold, hfree, ?_⟩
        rw [hw] at hclean
        exact hclean
      · rw [hfs, hw]; rfl

theorem guarantee_of_clean {before after : World} {planned : List FileInfo}
    {newCalls : List RenameCall} (hcalls : after.calls = before.calls ++ newCalls)
    (hplanned : newCalls.map (fun c => c.old) = planned.map (fun f => f.FullPath))
    (hclean : CleanRun before.fs newCalls)
    (hfs : after.fs = newCalls.foldl applyCall before.fs) :
    EmptyListGuarantee before after planned := by
  refine ⟨newCalls, hcalls, hplanned, cleanRun_all_ok newCalls _ hclean, ?_⟩
  intro pre c post hsplit
  subst hsplit
  rw [hfs]
  exact cleanRun_final before.fs pre post c hclean

theorem renameStep_plan (u : CaseTables) (rule : RenameRule) (s : LoopState) (a : FileInfo) :
    ((if passesFilter rule a = true ∧
          Join a.Path (transformName u rule s.numberCounter a ++ Ext a.Name) ≠ a.FullPath
        then some a else none) = none ∧
      (renameStep u rule s a).errors = s.errors ∧ (renameStep u rule s a).world = s.world) ∨
    (∃ f n e, (if passesFilter rule a = true ∧
          Join a.Path (transformName u rule s.numberCounter a ++ Ext a.Name) ≠ a.FullPath
        then some a else none) = some f ∧
      (renameStep u rule s a).errors = (resolveOutcome f n e s.errors s.world).1 ∧
      (renameStep u rule s a).world = (resolveOutcome f n e s.errors s.world).2) := by
  unfold renameStep
  by_cases hp : passesFilter rule a = false
  · left; simp [hp]
  · have hp' : passesFilter rule a = true := by simpa using hp
    by_cases hn : Join a.Path (transformName u rule s.numberCounter a ++ Ext a.Name) = a.FullPath
    · left; simp [hp', hn]
    · right
      exact ⟨a, transformName u rule s.numberCounter a, Ext a.Name, by simp [hp', hn],
        by simp [hp', hn], by simp [hp', hn]⟩

theorem renameStep_counter (u : CaseTables) (rule : RenameRule) (s : LoopState) (a : FileInfo) :
    (renameStep u rule s a).numberCounter
      = if passesFilter rule a = false then s.numberCounter
        else advanceCounter rule s.numberCounter := by
  unfold renameStep
  by_cases hp : passesFilter rule a = false
  · simp [hp]
  · have hp' : passesFilter rule a = true := by simpa using hp
    simp only [hp', Bool.true_eq_false, if_false]
    by_cases hn : Join a.Path (transformName u rule s.numberCounter a ++ Ext a.Name) = a.FullPath
    · rw [if_pos hn]
    · rw [if_neg hn]

theorem plannedAlong_rename (u : CaseTables) (rule : RenameRule) :
    ∀ (files : List FileInfo) (s : LoopState),
      plannedAlong (renameStep u rule)
          (fun s a => if passesFilter rule a = true ∧
              Join a.Path (transformName u rule s.numberCounter a ++ Ext a.Name) ≠ a.FullPath
            then some a else none) s files
        = plannedRename u rule s.numberCounter files := by
  intro files
  induction files with
  | nil => intro s; rfl
  | cons a files ih =>
    intro s
    unfold plannedAlong plannedRename
    rw [ih, renameStep_counter]
    by_cases hp : passesFilter rule a = false
    · simp [hp]
    · have hp' : passesFilter rule a = true := by simpa using hp
      by_cases hn : Join a.Path (transformName u rule s.numberCounter a ++ Ext a.Name) = a.FullPath
      · simp [hp', hn]
      · simp [hp', hn]

theorem aiStep_plan (s : List GoString × World) (a : FileInfo × GoString) :
    ((if Join a.1.Path (a.2 ++ Ext a.1.Name) ≠ a.1.FullPath then some a.1 else none) = none ∧
      (aiStep s a).1 = s.1 ∧ (aiStep s a).2 = s.2) ∨
    (∃ f n e, (if Join a.1.Path (a.2 ++ Ext a.1.Name) ≠ a.1.FullPath then some a.1 else none)
        = some f ∧
      (aiStep s a).1 = (resolveOutcome f n e s.1 s.2).1 ∧
      (aiStep s a).2 = (resolveOutcome f n e s.1 s.2).2) := by
  unfold aiStep
  by_cases hn : Join a.1.Path (a.2 ++ Ext a.1.Name) = a.1.FullPath
  · left; simp [hn]
  · right
    exact ⟨a.1, a.2, Ext a.1.Name, by simp [hn], by simp [hn], by simp [hn]⟩

theorem plannedAlong_ai :
    ∀ (entries : List (FileInfo × GoString)) (s : List GoString × World),
      plannedAlong aiStep
          (fun _ a => if Join a.1.Path (a.2 ++ Ext a.1.Name) ≠ a.1.FullPath then some a.1
            else none) s entries
        = plannedAI entries := by
  intro entries
  induction entries with
  | nil => intro s; rfl
  | cons a entries ih =>
    intro s
    unfold plannedAlong
    rw [ih]
    unfold plannedAI
    by_cases hn : Join a.1.Path (a.2 ++ Ext a.1.Name) = a.1.FullPath
    · simp [List.filter_cons, hn]
    · simp [List.filter_cons, hn]

/-- C3, as the code has it. `RenameFiles` and `AIRenameFiles` (called with as many names
as files) always return, and when the returned error list is empty every planned entry
(passed the filter, not a no-op) had exactly one rename call, issued from its path, and
every call succeeded; after the call the source of an entry no longer exists unless a
later entry of the batch was renamed onto that path, and its target exists unless a
later entry of the batch had that path as its source. -/
theorem empty_error_list_guarantee (u : CaseTables) (rule : RenameRule)
    (files : List FileInfo) (newNames : List GoString) (world : World)
    (hlen : files.length = newNames.length) :
    (∃ r, RenameFiles u files rule world = some r ∧
      (r.errors = [] →
        EmptyListGuarantee world r.world (plannedRename u rule rule.NumberStart files))) ∧
    (∃ r, AIRenameFiles files newNames world = some r ∧
      (r.errors = [] → EmptyListGuarantee world r.world (plannedAI (files.zip newNames)))) := by
  constructor
  · refine ⟨_, RenameFiles_eq u files rule world, ?_⟩
    intro herr
    obtain ⟨_, h2, h3⟩ := finish_err_iff
      (files.foldl (renameStep u rule) ⟨[], rule.NumberStart, world⟩).errors
      (files.foldl (renameStep u rule) ⟨[], rule.NumberStart, world⟩).world
    rw [h2] at herr
    rw [h3]
    obtain ⟨-, newCalls, hcalls, hplanned, hclean, hfs⟩ :=
      fold_clean (renameStep u rule) (fun s => s.errors) (fun s => s.world) _
        (renameStep_plan u rule) files ⟨[], rule.NumberStart, world⟩ herr
    rw [plannedAlong_rename] at hplanned
    exact guarantee_of_clean hcalls hplanned hclean hfs
  · refine ⟨_, AIRenameFiles_eq files newNames world hlen, ?_⟩
    intro herr
    obtain ⟨_, h2, h3⟩ := finish_err_iff
      ((files.zip newNames).foldl aiStep ([], world)).1
      ((files.zip newNames).foldl aiStep ([], world)).2
    rw [h2] at herr
    rw [h3]
    obtain ⟨-, newCalls, hcalls, hplanned, hclean, hfs⟩ :=
      fold_clean aiStep (fun s => s.1) (fun s => s.2) _ aiStep_plan (files.zip newNames)
        ([], world) herr
    rw [plannedAlong_ai] at hplanned
    exact guarantee_of_clean hcalls hplanned hclean hfs

theorem empty_error_list_guarantee_witness :
    [(⟨str "/d", str "a.txt", false, str "/d/a.txt"⟩ : FileInfo)].length = [str "c"].length ∧
    ∃ r, AIRenameFiles [⟨str "/d", str "a.txt", false, str "/d/a.txt"⟩] [str "c"]
        ⟨fsOf [str "/d/a.txt"], []⟩ = some r ∧
      (r.errors = [] → EmptyListGuarantee ⟨fsOf [str "/d/a.txt"], []⟩ r.world
        (plannedAI ([⟨str "/d", str "a.txt", false, str "/d/a.txt"⟩].zip [str "c"]))) :=
  ⟨by decide, (empty_error_list_guarantee latin1Tables RenameRule.zero
    [⟨str "/d", str "a.txt", false, str "/d/a.txt"⟩] [str "c"] ⟨fsOf [str "/d/a.txt"], []⟩
    (by decide)).2⟩

/-- C3 fails as stated. `AIRenameFiles` on `a.txt, b.txt` with names `c, a`, and
`RenameFiles` on `f_2.txt, f.txt` with numbering from 1, both return an empty error
list after renaming both files, yet the source path of the first entry (`/d/a.txt`,
`/d/f_2.txt`) exists after the call: the second entry was renamed onto it. -/
theorem source_path_exists_after_clean_batch :
    (AIRenameFiles [⟨str "/d", str "a.txt", false, str "/d/a.txt"⟩,
          ⟨str "/d", str "b.txt", false, str "/d/b.txt"⟩] [str "c", str "a"]
        ⟨fsOf [str "/d/a.txt", str "/d/b.txt"], []⟩).map
      (fun r => (r.errors, r.world.calls, r.world.fs.exist (str "/d/a.txt")))
      = some ([], [⟨str "/d/a.txt", str "/d/c.txt", true⟩,
          ⟨str "/d/b.txt", str "/d/a.txt", true⟩], true) ∧
    (RenameFiles latin1Tables [⟨str "/d", str "f_2.txt", false, str "/d/f_2.txt"⟩,
          ⟨str "/d", str "f.txt", false, str "/d/f.txt"⟩]
        { RenameRule.zero with NumberStart := 1, NumberStep := 1 }
        ⟨fsOf [str "/d/f_2.txt", str "/d/f.txt"], []⟩).map
      (fun r => (r.errors, r.world.calls, r.world.fs.exist (str "/d/f_2.txt")))
      = some ([], [⟨str "/d/f_2.txt", str "/d/f_2_1.txt", true⟩,
          ⟨str "/d/f.txt", str "/d/f_2.txt", true⟩], true) := by
  constructor <;> decide

/-! ## C5: the Name Transformer -/

theorem wrapInt_range (x : Int) : isInt64 (wrapInt x) := by
  unfold isInt64 wrapInt
  omega

theorem wrapInt_of_range {x : Int} (h : isInt64 x) : wrapInt x = x := by
  unfold isInt64 at h
  unfold wrapInt
  omega

theorem wrapInt_add_wrap (x y : Int) : wrapInt (wrapInt x + y) = wrapInt (x + y) := by
  unfold wrapInt
  omega

theorem advanceCounter_active {rule : RenameRule}
    (hact : rule.NumberStart > 0 ∨ rule.NumberStep > 0) (c : Int) :
    advanceCounter rule c = wrapInt (c + effectiveStep rule) := by
  unfold advanceCounter effectiveStep
  simp only [hact, if_true]
  by_cases h0 : rule.NumberStep = 0
  · simp only [h0, if_true]
    rw [wrapInt_add_wrap]
    simp
  · simp [h0]

theorem fold_counter (u : CaseTables) (rule : RenameRule)
    (hact : rule.NumberStart > 0 ∨ rule.NumberStep > 0) :
    ∀ (files : List FileInfo) (st : LoopState), isInt64 st.numberCounter →
      (files.foldl (renameStep u rule) st).numberCounter
        = wrapInt (st.numberCounter
            + (files.countP (fun f => passesFilter rule f) : Nat) * effectiveStep rule) := by
  intro files
  induction files with
  | nil =>
    intro st h
    simp [wrapInt_of_range h]
  | cons a files ih =>
    intro st h
    rw [List.foldl_cons, List.countP_cons]
    by_cases hp : passesFilter rule a = false
    · have hc : (renameStep u rule st a).numberCounter = st.numberCounter := by
        rw [renameStep_counter]; simp [hp]
      rw [ih _ (by rw [hc]; exact h), hc]
      simp [hp]
    · have hp' : passesFilter rule a = true := by simpa using hp
      have hc : (renameStep u rule st a).numberCounter
          = wrapInt (st.numberCounter + effectiveStep rule) := by
        rw [renameStep_counter, advanceCounter_active hact]; simp [hp']
      rw [ih _ (by rw [hc]; exact wrapInt_range _), hc, wrapInt_add_wrap]
      simp only [hp', if_true]
      congr 1
      push_cast
      ring

/-- C6, as the code has it. With numbering active, the file handled after a prefix
`pre` of the batch in which `k` files pass the glob filter finds `numberCounter` equal
to `NumberStart + k * step` reduced to the 64-bit range of Go `int` (`step` is
`NumberStep`, or 1 when `NumberStep` is 0), which is that very number whenever it fits
the range; skipped files do not move the counter; and the name given to a file that
passes ends in `_` followed by that counter. -/
theorem numbering_counter_wraps (u : CaseTables) (rule : RenameRule) (pre : List FileInfo)
    (file : FileInfo) (world : World)
    (hact : rule.NumberStart > 0 ∨ rule.NumberStep > 0) (hstart : isInt64 rule.NumberStart) :
    ∃ st, pre.foldlM (renameFilesBody u rule) ⟨[], rule.NumberStart, world⟩ = some st ∧
      st.numberCounter = wrapInt (rule.NumberStart
        + (pre.countP (fun f => passesFilter rule f) : Nat) * effectiveStep rule) ∧
      (isInt64 (rule.NumberStart
          + (pre.countP (fun f => passesFilter rule f) : Nat) * effectiveStep rule) →
        st.numberCounter = rule.NumberStart
          + (pre.countP (fun f => passesFilter rule f) : Nat) * effectiveStep rule) ∧
      (∃ base, transformName u rule st.numberCounter file
        = base ++ str "_" ++ itoa st.numberCounter) := by
  refine ⟨_, foldlM_total _ _ (renameFilesBody_eq u rule) pre _, ?_, ?_, ?_⟩
  · exact fold_counter u rule hact pre ⟨[], rule.NumberStart, world⟩ hstart
  · intro hfit
    rw [fold_counter u rule hact pre ⟨[], rule.NumberStart, world⟩ hstart]
    exact wrapInt_of_range hfit
  · unfold transformName
    simp only [hact, if_true, sprintfNameNumber]
    exact ⟨_, rfl⟩

theorem numbering_counter_witness :
    ((5 : Int) > 0 ∨ (0 : Int) > 0) ∧ isInt64 5 ∧
    ∃ st, [(⟨str "/d", str "a.txt", false, str "/d/a.txt"⟩ : FileInfo),
          ⟨str "/d", str "b.jpg", false, str "/d/b.jpg"⟩].foldlM
        (renameFilesBody latin1Tables
          { RenameRule.zero with Pattern := str "*.txt", NumberStart := 5 })
        ⟨[], 5, ⟨fsOf [str "/d/a.txt", str "/d/b.jpg", str "/d/c.txt"], []⟩⟩ = some st ∧
      st.numberCounter = 6 := by
  refine ⟨by decide, by unfold isInt64; omega, ?_⟩
  obtain ⟨st, h1, h2, -, -⟩ := numbering_counter_wraps latin1Tables
    { RenameRule.zero with Pattern := str "*.txt", NumberStart := 5 }
    [⟨str "/d", str "a.txt", false, str "/d/a.txt"⟩, ⟨str "/d", str "b.jpg", false, str "/d/b.jpg"⟩]
    ⟨str "/d", str "c.txt", false, str "/d/c.txt"⟩
    ⟨fsOf [str "/d/a.txt", str "/d/b.jpg", str "/d/c.txt"], []⟩
    (by decide) (by show isInt64 5; unfold isInt64; omega)
  exact ⟨st, h1, h2.trans (by decide)⟩

/-- C6 fails as stated. With `NumberStart = 9223372036854775807` and `NumberStep = 1`
the second matched file (`k = 1`) is numbered `-9223372036854775808`, not
`NumberStart + 1 * NumberStep = 9223372036854775808`: Go `int` arithmetic wraps. -/
theorem numbering_counter_overflow :
    (RenameFiles latin1Tables [⟨str "/d", str "a.txt", false, str "/d/a.txt"⟩,
          ⟨str "/d", str "b.txt", false, str "/d/b.txt"⟩]
        { RenameRule.zero with NumberStart := 9223372036854775807, NumberStep := 1 }
        ⟨fsOf [str "/d/a.txt", str "/d/b.txt"], []⟩).map (fun r => r.world.calls)
      = some [⟨str "/d/a.txt", str "/d/a_9223372036854775807.txt", true⟩,
          ⟨str "/d/b.txt", str "/d/b_-9223372036854775808.txt", true⟩] ∧
    ([(⟨str "/d", str "a.txt", false, str "/d/a.txt"⟩ : FileInfo)].foldlM
        (renameFilesBody latin1Tables
          { RenameRule.zero with NumberStart := 9223372036854775807, NumberStep := 1 })
        ⟨[], 9223372036854775807, ⟨fsOf [str "/d/a.txt", str "/d/b.txt"], []⟩⟩).map
        (fun st => st.numberCounter) = some (-9223372036854775808) ∧
    (-9223372036854775808 : Int) ≠ 9223372036854775807 + 1 * 1 := by
  refine ⟨by decide, by decide, by decide⟩

/-! ## C8: the glob filter -/

theorem passesFilter_eq_match {rule : RenameRule} (hp1 : rule.Pattern ≠ [])
    (hp2 : rule.Pattern ≠ str "*") (file : FileInfo) :
    passesFilter rule file = decide (filepathMatch rule.Pattern file.Name = (true, false)) := by
  unfold passesFilter
  simp only [hp1, hp2, ne_eq, not_false_eq_true, and_self, if_true]
  rcases h : filepathMatch rule.Pattern file.Name with ⟨m, e⟩
  cases m <;> cases e <;> simp

theorem foldl_filter_skip {σ α : Type} (step : σ → α → σ) (p : α → Bool)
    (hskip : ∀ s a, p a = false → step s a = s) :
    ∀ (l : List α) (s : σ), (l.filter p).foldl step s = l.foldl step s := by
  intro l
  induction l with
  | nil => intro s; rfl
  | cons a l ih =>
    intro s
    by_cases h : p a = true
    · simp [List.filter_cons, h, ih]
    · have h' : p a = false := by simpa using h
      simp [List.filter_cons, h', ih, hskip s a h']

theorem resolveOutcome_frame (file : FileInfo) (newName ext : GoString)
    (errors : List GoString) (world : World) :
    (∀ c ∈ (resolveOutcome file newName ext errors world).2.calls,
        c ∈ world.calls ∨ c.old = file.FullPath) ∧
    (∀ m ∈ (resolveOutcome file newName ext errors world).1,
        m ∈ errors ∨ m = exhaustedMessage file.Name ∨ ∃ e, m = failedMessage file.Name e) ∧
    (∀ p, world.fs.exist p = true → file.FullPath ≠ p →
        (resolveOutcome file newName ext errors world).2.fs.exist p = true) := by
  cases hff : firstFree world.fs file newName ext with
  | none =>
    rw [resolveOutcome_none errors hff]
    refine ⟨fun c hc => Or.inl hc, ?_, fun p hp _ => hp⟩
    intro m hm
    rcases List.mem_append.mp hm with h | h
    · exact Or.inl h
    · exact Or.inr (Or.inl (by simpa using h))
  | some k =>
    rw [resolveOutcome_some errors hff]
    refine ⟨?_, ?_, ?_⟩
    · intro c hc
      rcases List.mem_append.mp hc with h | h
      · exact Or.inl h
      · right
        have : c = ⟨file.FullPath, candidate file newName ext k,
            (osRename world.fs file.FullPath (candidate file newName ext k)).2.isNone⟩ := by
          simpa using h
        rw [this]
    · intro m hm
      rcases List.mem_append.mp hm with h | h
      · exact Or.inl h
      · right; right
        cases hr : (osRename world.fs file.FullPath (candidate file newName ext k)).2 with
        | none => simp [hr] at h
        | some e => exact ⟨e, by simpa [hr] using h⟩
    · intro p hp hne
      cases hr : (osRename world.fs file.FullPath (candidate file newName ext k)).2 with
      | some e => simp only [osRename_fs_of_error hr]; exact hp
      | none =>
        simp only [(osRename_ok hr).2, applyCall, if_true]
        by_cases hnew : p = candidate file newName ext k
        · rw [if_pos hnew]
        · rw [if_neg hnew, if_neg (fun e => hne e.symm)]; exact hp

theorem renameStep_frame (u : CaseTables) (rule : RenameRule) (st : LoopState)
    (file : FileInfo) :
    (∀ c ∈ (renameStep u rule st file).world.calls,
        c ∈ st.world.calls ∨ (passesFilter rule file = true ∧ c.old = file.FullPath)) ∧
    (∀ m ∈ (renameStep u rule st file).errors,
        m ∈ st.errors ∨ (passesFilter rule file = true ∧
          (m = exhaustedMessage file.Name ∨ ∃ e, m = failedMessage file.Name e))) ∧
    (∀ p, st.world.fs.exist p = true → (passesFilter rule file = true → file.FullPath ≠ p) →
        (renameStep u rule st file).world.fs.exist p = true) := by
  unfold renameStep
  by_cases hp : passesFilter rule file = false
  · simp only [hp, if_true]
    exact ⟨fun c hc => Or.inl hc, fun m hm => Or.inl hm, fun p h _ => h⟩
  · have hp' : passesFilter rule file = true := by simpa using hp
    simp only [hp', Bool.true_eq_false, if_false]
    by_cases hn : Join file.Path (transformName u rule st.numberCounter file ++ Ext file.Name)
        = file.FullPath
    · simp only [hn, if_true]
      exact ⟨fun c hc => Or.inl hc, fun m hm => Or.inl hm, fun p h _ => h⟩
    · simp only [hn, if_false]
      obtain ⟨h1, h2, h3⟩ := resolveOutcome_frame file
        (transformName u rule st.numberCounter file) (Ext file.Name) st.errors st.world
      refine ⟨?_, ?_, ?_⟩
      · intro c hc
        rcases h1 c hc with h | h
        · exact Or.inl h
        · exact Or.inr ⟨trivial, h⟩
      · intro m hm
        rcases h2 m hm with h | h
        · exact Or.inl h
        · exact Or.inr ⟨trivial, h⟩
      · intro p hpe hne
        exact h3 p hpe (hne trivial)

theorem fold_frame (u : CaseTables) (rule : RenameRule) :
    ∀ (files : List FileInfo) (st : LoopState),
      (∀ c ∈ (files.foldl (renameStep u rule) st).world.calls,
          c ∈ st.world.calls ∨ ∃ g ∈ files, passesFilter rule g = true ∧ c.old = g.FullPath) ∧
      (∀ m ∈ (files.foldl (renameStep u rule) st).errors,
          m ∈ st.errors ∨ ∃ g ∈ files, passesFilter rule g = true ∧
            (m = exhaustedMessage g.Name ∨ ∃ e, m = failedMessage g.Name e)) ∧
      (∀ p, st.world.fs.exist p = true →
          (∀ g ∈ files, passesFilter rule g = true → g.FullPath ≠ p) →
          (files.foldl (renameStep u rule) st).world.fs.exist p = true) := by
  intro files
  induction files with
  | nil =>
    intro st
    exact ⟨fun c hc => Or.inl hc, fun m hm => Or.inl hm, fun p h _ => h⟩
  | cons a files ih =>
    intro st
    rw [List.foldl_cons]
    obtain ⟨i1, i2, i3⟩ := ih (renameStep u rule st a)
    obtain ⟨s1, s2, s3⟩ := renameStep_frame u rule st a
    refine ⟨?_, ?_, ?_⟩
    · intro c hc
      rcases i1 c hc with h | ⟨g, hg, hpg, hcg⟩
      · rcases s1 c h with h' | ⟨hpa, hca⟩
        · exact Or.inl h'
        · exact Or.inr ⟨a, List.mem_cons_self _ _, hpa, hca⟩
      · exact Or.inr ⟨g, List.mem_cons_of_mem _ hg, hpg, hcg⟩
    · intro m hm
      rcases i2 m hm with h | ⟨g, hg, hpg, hmg⟩
      · rcases s2 m h with h' | ⟨hpa, hma⟩
        · exact Or.inl h'
        · exact Or.inr ⟨a, List.mem_cons_self _ _, hpa, hma⟩
      · exact Or.inr ⟨g, List.mem_cons_of_mem _ hg, hpg, hmg⟩
    · intro p hp hne
      apply i3 p
      · exact s3 p hp (fun hpa => hne a (List.mem_cons_self _ _) hpa)
      · exact fun g hg => hne g (List.mem_cons_of_mem _ hg)

/-- C8. For a rule whose pattern is neither empty nor `*`, `RenameFiles` returns on the
whole batch exactly what it returns on the batch with the non-matching files removed
(same error list, same error, same filesystem, same rename calls); every rename call it
issues has a matching file as its source and every message in the error list is the
exhaustion or failure message of a matching file; and every path that exists before the
call and is not the path of a matching file still exists after it.  Pattern `*.txt` on
`a.txt, b.jpg` (with prefix `new_`) renames `a.txt` only. -/
theorem glob_filter_frame (u : CaseTables) (rule : RenameRule) (files : List FileInfo)
    (world : World) (hp1 : rule.Pattern ≠ []) (hp2 : rule.Pattern ≠ str "*") :
    ∃ r, RenameFiles u files rule world = some r ∧
      RenameFiles u
        (files.filter (fun f => decide (filepathMatch rule.Pattern f.Name = (true, false))))
        rule world = some r ∧
      (∀ c ∈ r.world.calls, c ∈ world.calls ∨
        ∃ g ∈ files, filepathMatch rule.Pattern g.Name = (true, false) ∧ c.old = g.FullPath) ∧
      (∀ m ∈ r.errors, ∃ g ∈ files, filepathMatch rule.Pattern g.Name = (true, false) ∧
        (m = exhaustedMessage g.Name ∨ ∃ e, m = failedMessage g.Name e)) ∧
      (∀ p, world.fs.exist p = true →
        (∀ g ∈ files, filepathMatch rule.Pattern g.Name = (true, false) → g.FullPath ≠ p) →
        r.world.fs.exist p = true) ∧
      (RenameFiles latin1Tables [⟨str "/d", str "a.txt", false, str "/d/a.txt"⟩,
            ⟨str "/d", str "b.jpg", false, str "/d/b.jpg"⟩]
          { RenameRule.zero with Pattern := str "*.txt", AddPrefix := str "new_" }
          ⟨fsOf [str "/d/a.txt", str "/d/b.jpg"], []⟩).map
          (fun r => (r.errors, r.world.calls, r.world.fs.exist (str "/d/b.jpg")))
        = some ([], [⟨str "/d/a.txt", str "/d/new_a.txt", true⟩], true) := by
  have hpass := passesFilter_eq_match hp1 hp2
  have hfilter : (files.filter
      (fun f => decide (filepathMatch rule.Pattern f.Name = (true, false)))).foldl
        (renameStep u rule) ⟨[], rule.NumberStart, world⟩
      = files.foldl (renameStep u rule) ⟨[], rule.NumberStart, world⟩ := by
    apply foldl_filter_skip
    intro s a ha
    unfold renameStep
    rw [hpass a, ha]
    simp
  obtain ⟨f1, f2, f3⟩ := fold_frame u rule files ⟨[], rule.NumberStart, world⟩
  obtain ⟨-, e2, e3⟩ := finish_err_iff
    (files.foldl (renameStep u rule) ⟨[], rule.NumberStart, world⟩).errors
    (files.foldl (renameStep u rule) ⟨[], rule.NumberStart, world⟩).world
  refine ⟨_, RenameFiles_eq u files rule world, ?_, ?_, ?_, ?_, by decide⟩
  · rw [RenameFiles_eq, hfilter]
  · intro c hc
    rw [e3] at hc
    rcases f1 c hc with h | ⟨g, hg, hpg, hcg⟩
    · exact Or.inl h
    · exact Or.inr ⟨g, hg, by rw [hpass g] at hpg; simpa using hpg, hcg⟩
  · intro m hm
    rw [e2] at hm
    rcases f2 m hm with h | ⟨g, hg, hpg, hmg⟩
    · cases h
    · exact ⟨g, hg, by rw [hpass g] at hpg; simpa using hpg, hmg⟩
  · intro p hp hne
    rw [e3]
    apply f3 p hp
    intro g hg hpg
    exact hne g hg (by rw [hpass g] at hpg; simpa using hpg)

theorem glob_filter_frame_witness :
    str "*.txt" ≠ [] ∧ str "*.txt" ≠ str "*" ∧
    ∃ r, RenameFiles latin1Tables [⟨str "/d", str "a.txt", false, str "/d/a.txt"⟩,
          ⟨str "/d", str "b.jpg", false, str "/d/b.jpg"⟩]
        { RenameRule.zero with Pattern := str "*.txt", AddPrefix := str "new_" }
        ⟨fsOf [str "/d/a.txt", str "/d/b.jpg"], []⟩ = some r ∧
      RenameFiles latin1Tables [⟨str "/d", str "a.txt", false, str "/d/a.txt"⟩]
        { RenameRule.zero with Pattern := str "*.txt", AddPrefix := str "new_" }
        ⟨fsOf [str "/d/a.txt", str "/d/b.jpg"], []⟩ = some r := by
  refine ⟨by decide, by decide, ?_⟩
  obtain ⟨r, h1, h2, -⟩ := glob_filter_frame latin1Tables
    { RenameRule.zero with Pattern := str "*.txt", AddPrefix := str "new_" }
    [⟨str "/d", str "a.txt", false, str "/d/a.txt"⟩, ⟨str "/d", str "b.jpg", false, str "/d/b.jpg"⟩]
    ⟨fsOf [str "/d/a.txt", str "/d/b.jpg"], []⟩ (by decide) (by decide)
  refine ⟨r, h1, ?_⟩
  have hf : [(⟨str "/d", str "a.txt", false, str "/d/a.txt"⟩ : FileInfo),
      ⟨str "/d", str "b.jpg", false, str "/d/b.jpg"⟩].filter
        (fun f => decide (filepathMatch (str "*.txt") f.Name = (true, false)))
      = [⟨str "/d", str "a.txt", false, str "/d/a.txt"⟩] := by decide
  rw [← hf]
  exact h2

/-! ## C9: title case -/

/-- C9 fails on the code. For the base name `文件` the title branch (lines 202-206)
takes the first byte `0xE6` of the name, not its first character, turns it into the
rune U+00E6, uppercases that to U+00C6 and glues the remaining bytes behind it: the
result is the byte string `C3 86 96 87 E4 BB B6`, whereas uppercasing the first
character and lowercasing the rest leaves `文件` as it is; `RenameFiles` renames
`文件.txt` to that byte string plus `.txt`. -/
theorem title_case_takes_first_byte :
    applyCase latin1Tables (str "title") (str "文件")
      = [0xC3, 0x86, 0x96, 0x87, 0xE4, 0xBB, 0xB6] ∧
    titleCaseSpec latin1Tables (str "文件") = str "文件" ∧
    (RenameFiles latin1Tables [⟨str "/d", str "文件.txt", false, str "/d/文件.txt"⟩]
        { RenameRule.zero with CaseType := str "title" }
        ⟨fsOf [str "/d/文件.txt"], []⟩).map (fun r => (r.errors, r.world.calls))
      = some ([], [⟨str "/d/文件.txt",
          str "/d/" ++ [0xC3, 0x86, 0x96, 0x87, 0xE4, 0xBB, 0xB6] ++ str ".txt", true⟩]) := by
  refine ⟨by decide, by decide, by decide⟩

theorem runes_ascii_cons (b : Nat) (rest : GoString) (hb : b < 0x80) :
    runes (b :: rest) = b :: runes rest := by
  simp [runes, runesFrom, decodeRune, hb]

theorem encodeRune_ascii (r : Nat) (h : r < 0x80) : encodeRune r = [r] := by
  simp [encodeRune, h]

theorem unicodeToLower_ascii (u : CaseTables) (b : Nat) (hb : b < 0x80) :
    unicodeToLower u b < 0x80 ∧ unicodeToUpper u (unicodeToLower u b) = unicodeToUpper u b ∧
      unicodeToUpper u b < 0x80 := by
  unfold unicodeToLower unicodeToUpper
  split_ifs <;> omega

/-- The title branch agrees with the rune-wise reading of title case whenever the name
begins with an ASCII byte. -/
theorem title_case_ascii_first (u : CaseTables) (b : Nat) (rest : GoString) (hb : b < 0x80) :
    applyCase u (str "title") (b :: rest) = titleCaseSpec u (b :: rest) := by
  obtain ⟨hl, hul, hu⟩ := unicodeToLower_ascii u b hb
  have h1 : str "title" ≠ str "lower" := by decide
  have h2 : str "title" ≠ str "upper" := by decide
  have hlow : ToLower u (b :: rest)
      = unicodeToLower u b :: (runes rest).flatMap (fun c => encodeRune (unicodeToLower u c)) := by
    simp [ToLower, stringsMap, runes_ascii_cons b rest hb, encodeRune_ascii _ hl]
  have hup : ToUpper u (encodeRune (unicodeToLower u b)) = [unicodeToUpper u b] := by
    rw [encodeRune_ascii _ hl]
    have hr : runes [unicodeToLower u b] = [unicodeToLower u b] := by
      rw [runes_ascii_cons _ [] hl]; rfl
    simp [ToUpper, stringsMap, hr, hul, encodeRune_ascii _ hu]
  unfold applyCase titleCaseSpec
  simp only [h1, h2, if_false, if_true, hlow, hup, runes_ascii_cons b rest hb,
    encodeRune_ascii _ hu]

/-! ## C10: upper case -/

/-- C10 fails as stated. With only `caseType` `upper` set, `RenameFiles` renames
`x.jpg` to `X.jpg`, not to `X.JPG`: the extension is left as it is. -/
theorem upper_keeps_extension_example :
    (RenameFiles latin1Tables [⟨str "/d", str "x.jpg", false, str "/d/x.jpg"⟩]
        { RenameRule.zero with CaseType := str "upper" }
        ⟨fsOf [str "/d/x.jpg"], []⟩).map (fun r => (r.errors, r.world.calls))
      = some ([], [⟨str "/d/x.jpg", str "/d/X.jpg", true⟩]) ∧
    str "/d/X.jpg" ≠ str "/d/X.JPG" ∧
    str "X.jpg" ≠ ToUpper latin1Tables (str "x.jpg") := by
  refine ⟨by decide, by decide, by decide⟩

/-- C10, as the code has it. With only `caseType` `upper` set, the file name
`RenameFiles` computes is the upper-casing of the base name followed by the original
extension unchanged; for `x.jpg` without a collision the rename goes to `X.jpg`. -/
theorem upper_case_base_only (u : CaseTables) (counter : Int) (file : FileInfo) :
    transformName u { RenameRule.zero with CaseType := str "upper" } counter file
        ++ Ext file.Name
      = ToUpper u (TrimSuffix file.Name (Ext file.Name)) ++ Ext file.Name ∧
    (RenameFiles latin1Tables [⟨str "/d", str "x.jpg", false, str "/d/x.jpg"⟩]
        { RenameRule.zero with CaseType := str "upper" }
        ⟨fsOf [str "/d/x.jpg"], []⟩).map (fun r => (r.errors, r.world.calls))
      = some ([], [⟨str "/d/x.jpg", str "/d/X.jpg", true⟩]) := by
  refine ⟨?_, by decide⟩
  have h1 : str "upper" ≠ str "lower" := by decide
  simp [transformName, applyCase, RenameRule.zero, h1]

/-! ## C7: the directory of the rename target -/

theorem splitSep_sepfree : ∀ (n cur : GoString), sep ∉ n → splitSep cur n = [cur.reverse ++ n] := by
  intro n
  induction n with
  | nil => intro cur _; simp [splitSep]
  | cons b n ih =>
    intro cur h
    have hb : b ≠ sep := fun e => h (by simp [e])
    have hn : sep ∉ n := fun hm => h (List.mem_cons_of_mem _ hm)
    simp [splitSep, hb, ih (b :: cur) hn]

theorem splitSep_append_sep (b : GoString) :
    ∀ (a cur : GoString), splitSep cur (a ++ sep :: b) = splitSep cur a ++ splitSep [] b := by
  intro a
  induction a with
  | nil => intro cur; simp [splitSep]
  | cons x a ih =>
    intro cur
    by_cases hx : x = sep
    · simp [splitSep, hx, ih []]
    · simp [splitSep, hx, ih (x :: cur)]

theorem splitSep_comps_sepfree :
    ∀ (s cur : GoString), sep ∉ cur → ∀ c ∈ splitSep cur s, sep ∉ c := by
  intro s
  induction s with
  | nil =>
    intro cur hcur c hc
    simp only [splitSep, List.mem_singleton] at hc
    subst hc
    simpa using hcur
  | cons b s ih =>
    intro cur hcur c hc
    by_cases hb : b = sep
    · simp only [splitSep, hb, if_true, List.mem_cons] at hc
      rcases hc with h | h
      · subst h; simpa using hcur
      · exact ih [] (by simp) c h
    · simp only [splitSep, hb, if_false] at hc
      refine ih (b :: cur) ?_ c hc
      intro hm
      rcases List.mem_cons.mp hm with e | hm'
      · exact hb e.symm
      · exact hcur hm'

theorem joinSep_snoc (n : GoString) :
    ∀ (X : List GoString), joinSep (X ++ [n]) = if X = [] then n else joinSep X ++ sep :: n := by
  intro X
  induction X with
  | nil => simp [joinSep]
  | cons c X ih =>
    cases X with
    | nil => simp [joinSep]
    | cons d X =>
      have := ih
      simp only [List.cons_append, reduceCtorEq, if_false] at this ⊢
      simp [joinSep, this]

theorem splitSep_joinSep :
    ∀ (L : List GoString), L ≠ [] → (∀ c ∈ L, sep ∉ c) → splitSep [] (joinSep L) = L := by
  intro L
  induction L with
  | nil => intro h; exact absurd rfl h
  | cons c L ih =>
    intro _ hfree
    cases L with
    | nil =>
      simp only [joinSep]
      rw [splitSep_sepfree c [] (hfree c (List.mem_cons_self _ _))]
      simp
    | cons d L =>
      simp only [joinSep]
      rw [splitSep_append_sep, splitSep_sepfree c [] (hfree c (List.mem_cons_self _ _)),
        ih (by simp) (fun x hx => hfree x (List.mem_cons_of_mem _ hx))]
      simp

theorem normalStack_sepfree {r : Bool} :
    ∀ {S : List GoString}, NormalStack r S → ∀ c ∈ S, sep ∉ c ∧ c ≠ [] := by
  intro S
  induction S with
  | nil => intro _ c hc; cases hc
  | cons x S ih =>
    intro h c hc
    rcases List.mem_cons.mp hc with e | hc'
    · subst e; exact ⟨h.2.2.1, h.1⟩
    · exact ih h.2.2.2.2 c hc'

theorem cleanStep_normal {r : Bool} {S : List GoString} (hS : NormalStack r S) {c : GoString}
    (hc : sep ∉ c) : NormalStack r (cleanStep r S c) := by
  unfold cleanStep
  by_cases h1 : c = [] ∨ c = [0x2E]
  · simp only [h1, if_true]; exact hS
  · simp only [h1, if_false]
    have hne : c ≠ [] := fun e => h1 (Or.inl e)
    have hnd : c ≠ [0x2E] := fun e => h1 (Or.inr e)
    by_cases h2 : c = [0x2E, 0x2E]
    · simp only [h2, if_true]
      cases S with
      | nil =>
        cases r with
        | true => simp [NormalStack]
        | false =>
          refine ⟨by simp, by simp, by decide, fun _ => ⟨rfl, fun x hx => by cases hx⟩, trivial⟩
      | cons top below =>
        by_cases h3 : top = [0x2E, 0x2E]
        · simp only [h3, if_true]
          subst h3
          have hdd := hS.2.2.2.1
          obtain ⟨hr, hbelow⟩ := hdd rfl
          refine ⟨by simp, by simp, by decide, fun _ => ⟨hr, ?_⟩, hS⟩
          intro x hx
          rcases List.mem_cons.mp hx with e | hx'
          · exact e
          · exact hbelow x hx'
        · simp only [h3, if_false]
          exact hS.2.2.2.2
    · simp only [h2, if_false]
      exact ⟨hne, hnd, hc, fun e => absurd e h2, hS⟩

theorem foldl_cleanStep_normal {r : Bool} :
    ∀ (cs : List GoString) (S : List GoString), NormalStack r S → (∀ c ∈ cs, sep ∉ c) →
      NormalStack r (cs.foldl (cleanStep r) S) := by
  intro cs
  induction cs with
  | nil => intro S hS _; exact hS
  | cons c cs ih =>
    intro S hS hfree
    exact ih _ (cleanStep_normal hS (hfree c (List.mem_cons_self _ _)))
      (fun x hx => hfree x (List.mem_cons_of_mem _ hx))

theorem cleanStep_on_normal {r : Bool} {c : GoString} {below : List GoString}
    (h : NormalStack r (c :: below)) : cleanStep r below c = c :: below := by
  obtain ⟨hne, hnd, -, hdd, -⟩ := h
  unfold cleanStep
  have h1 : ¬ (c = [] ∨ c = [0x2E]) := fun e => e.elim hne hnd
  simp only [h1, if_false]
  by_cases h2 : c = [0x2E, 0x2E]
  · obtain ⟨hr, hbelow⟩ := hdd h2
    simp only [h2, if_true]
    cases below with
    | nil => simp [hr]
    | cons top rest =>
      have := hbelow top (List.mem_cons_self _ _)
      simp [this]
  · simp only [h2, if_false]

theorem renormalise {r : Bool} :
    ∀ (S : List GoString), NormalStack r S → S.reverse.foldl (cleanStep r) [] = S := by
  intro S
  induction S with
  | nil => intro _; rfl
  | cons c below ih =>
    intro h
    rw [List.reverse_cons, List.foldl_append, ih h.2.2.2.2]
    simp only [List.foldl_cons, List.foldl_nil]
    exact cleanStep_on_normal h

theorem joinSep_ne_nil : ∀ (L : List GoString), L ≠ [] → (∀ c ∈ L, c ≠ []) → joinSep L ≠ [] := by
  intro L hL hne
  cases L with
  | nil => exact absurd rfl hL
  | cons c L =>
    cases L with
    | nil => simpa [joinSep] using hne c (List.mem_cons_self _ _)
    | cons d L => simp [joinSep]

theorem joinSep_head (c : GoString) (L : List GoString) (hc : c ≠ []) :
    (joinSep (c :: L)).head? = c.head? := by
  cases L with
  | nil => rfl
  | cons d L =>
    cases c with
    | nil => exact absurd rfl hc
    | cons x c => simp [joinSep]

/-- Cleaning a relative cleaned path with a separator appended gives the path back. -/
theorem clean_relative_trailing {S : List GoString} (hS : NormalStack false S) (hne : S ≠ []) :
    Clean (joinSep S.reverse ++ [sep]) = joinSep S.reverse := by
  have hfree : ∀ c ∈ S.reverse, sep ∉ c := fun c hc =>
    (normalStack_sepfree hS c (List.mem_reverse.mp hc)).1
  have hnonempty : ∀ c ∈ S.reverse, c ≠ [] := fun c hc =>
    (normalStack_sepfree hS c (List.mem_reverse.mp hc)).2
  have hrev : S.reverse ≠ [] := by simpa using hne
  have hhead : (joinSep S.reverse ++ [sep]).head? ≠ some sep := by
    cases hL : S.reverse with
    | nil => exact absurd hL hrev
    | cons c L =>
      have hc : c ≠ [] := hnonempty c (by rw [hL]; exact List.mem_cons_self _ _)
      have hcs : sep ∉ c := hfree c (by rw [hL]; exact List.mem_cons_self _ _)
      have hj := joinSep_head c L hc
      have hjn : joinSep (c :: L) ≠ [] := joinSep_ne_nil _ (by simp) (by rw [← hL]; exact hnonempty)
      rw [List.head?_append_of_ne_nil _ hjn, hj]
      cases c with
      | nil => exact absurd rfl hc
      | cons x c =>
        simp only [List.head?_cons, ne_eq, Option.some.injEq]
        intro e
        exact hcs (by simp [e])
  unfold Clean
  have hp : joinSep S.reverse ++ [sep] ≠ [] := by simp
  simp only [hp, if_false, hhead, decide_False, Bool.false_eq_true]
  rw [splitSep_append_sep, splitSep_joinSep _ hrev hfree, List.foldl_append, renormalise S hS]
  simp [splitSep, cleanStep, hne]

/-- Cleaning a rooted cleaned path with a separator appended gives the path back. -/
theorem clean_rooted_trailing {S : List GoString} (hS : NormalStack true S) (hne : S ≠ []) :
    Clean (sep :: (joinSep S.reverse ++ [sep])) = sep :: joinSep S.reverse := by
  have hfree : ∀ c ∈ S.reverse, sep ∉ c := fun c hc =>
    (normalStack_sepfree hS c (List.mem_reverse.mp hc)).1
  have hrev : S.reverse ≠ [] := by simpa using hne
  unfold Clean
  simp only [reduceCtorEq, if_false, List.head?_cons, decide_True, if_true]
  have hsplit : splitSep [] (sep :: (joinSep S.reverse ++ [sep]))
      = [] :: (S.reverse ++ [[]]) := by
    simp only [splitSep, if_true, List.reverse_nil]
    rw [splitSep_append_sep, splitSep_joinSep _ hrev hfree]
    simp [splitSep]
  rw [hsplit]
  simp only [List.foldl_cons, List.foldl_append, List.foldl_nil]
  have h0 : cleanStep true [] [] = [] := by simp [cleanStep]
  rw [h0, renormalise S hS]
  simp [cleanStep]

theorem dirPrefix_sepfree : ∀ (n : GoString), sep ∉ n → dirPrefix n = [] := by
  intro n
  induction n with
  | nil => intro _; rfl
  | cons b n ih =>
    intro h
    have hb : b ≠ sep := fun e => h (by simp [e])
    simp [dirPrefix, hb, ih (fun hm => h (List.mem_cons_of_mem _ hm))]

theorem dirPrefix_append_sep (X : GoString) :
    ∀ (n : GoString), sep ∉ n → dirPrefix (n ++ sep :: X) = sep :: X := by
  intro n
  induction n with
  | nil => intro _; simp [dirPrefix]
  | cons b n ih =>
    intro h
    have hb : b ≠ sep := fun e => h (by simp [e])
    simp [dirPrefix, hb, ih (fun hm => h (List.mem_cons_of_mem _ hm))]

theorem clean_eq_of_stack {d : GoString} (hd : d ≠ []) :
    NormalStack (decide (d.head? = some sep))
        ((splitSep [] d).foldl (cleanStep (decide (d.head? = some sep))) []) ∧
      Clean d = (if d.head? = some sep then
          sep :: joinSep ((splitSep [] d).foldl (cleanStep (decide (d.head? = some sep))) []).reverse
        else if (splitSep [] d).foldl (cleanStep (decide (d.head? = some sep))) [] = [] then [0x2E]
        else joinSep ((splitSep [] d).foldl (cleanStep (decide (d.head? = some sep))) []).reverse) := by
  constructor
  · exact foldl_cleanStep_normal _ _ trivial (splitSep_comps_sepfree d [] (by simp))
  · unfold Clean
    by_cases hr : d.head? = some sep <;> simp [hd, hr]

/-- Joining a plain name to a directory and taking the directory of the result gives
the cleaned directory. -/
theorem dir_join_plain (d n : GoString) (hn : PlainName n) : Dir (Join d n) = Clean d := by
  obtain ⟨hne, hnd, hndd, hsep⟩ := hn
  have hnrev : sep ∉ n.reverse := by simpa using hsep
  have hstep : ∀ (r : Bool) (S : List GoString), cleanStep r S n = n :: S := by
    intro r S
    simp [cleanStep, hne, hnd, hndd]
  have hnhead : n.head? ≠ some sep := by
    cases n with
    | nil => exact absurd rfl hne
    | cons x n =>
      simp only [List.head?_cons, ne_eq, Option.some.injEq]
      intro e
      exact hsep (by simp [e])
  unfold Join
  by_cases hd : d = []
  · subst hd
    simp only [ne_eq, not_true_eq_false, if_false, hne, not_false_eq_true, if_true]
    have hC : Clean n = n := by
      unfold Clean
      simp only [hne, if_false, hnhead, decide_False, Bool.false_eq_true]
      rw [splitSep_sepfree n [] hsep]
      simp [hstep, joinSep]
    rw [hC]
    unfold Dir
    rw [dirPrefix_sepfree _ hnrev]
    rfl
  · simp only [ne_eq, hd, not_false_eq_true, if_true]
    obtain ⟨hnormal, hclean⟩ := clean_eq_of_stack hd
    have hp : d ++ sep :: n ≠ [] := by simp
    have hhead : (d ++ sep :: n).head? = d.head? := List.head?_append_of_ne_nil _ hd
    generalize hS : (splitSep [] d).foldl (cleanStep (decide (d.head? = some sep))) [] = S
      at hnormal hclean
    have hstack : (splitSep [] (d ++ sep :: n)).foldl
        (cleanStep (decide (d.head? = some sep))) [] = n :: S := by
      rw [splitSep_append_sep, splitSep_sepfree n [] hsep, List.foldl_append, hS]
      simp [hstep]
    have hCp : Clean (d ++ sep :: n)
        = if d.head? = some sep then sep :: joinSep (S.reverse ++ [n])
          else joinSep (S.reverse ++ [n]) := by
      unfold Clean
      simp only [hp, if_false, hhead, hstack]
      by_cases hr : d.head? = some sep <;> simp [hr]
    rw [hCp, hclean, joinSep_snoc]
    unfold Dir
    by_cases hr : d.head? = some sep
    · simp only [hr, if_true, decide_True] at hnormal ⊢
      by_cases hSe : S = []
      · subst hSe
        simp only [List.reverse_nil, if_true, List.reverse_cons, joinSep]
        rw [dirPrefix_append_sep [] n.reverse hnrev]
        decide
      · have hrev : S.reverse ≠ [] := by simpa using hSe
        simp only [hrev, if_false, List.reverse_cons, List.reverse_append]
        simp only [List.append_assoc, List.singleton_append, List.cons_append, List.nil_append]
        rw [dirPrefix_append_sep _ n.reverse hnrev]
        have e2 : (sep :: ((joinSep S.reverse).reverse ++ [sep])).reverse
            = sep :: (joinSep S.reverse ++ [sep]) := by simp
        rw [e2]
        exact clean_rooted_trailing hnormal hSe
    · simp only [hr, if_false, decide_False] at hnormal ⊢
      by_cases hSe : S = []
      · subst hSe
        simp only [List.reverse_nil, if_true]
        rw [dirPrefix_sepfree _ hnrev]
        rfl
      · have hrev : S.reverse ≠ [] := by simpa using hSe
        simp only [hrev, hSe, if_false, List.reverse_append, List.reverse_cons]
        simp only [List.append_assoc, List.singleton_append, List.cons_append, List.nil_append]
        rw [dirPrefix_append_sep _ n.reverse hnrev]
        have e2 : (sep :: (joinSep S.reverse).reverse).reverse = joinSep S.reverse ++ [sep] := by
          simp
        rw [e2]
        exact clean_relative_trailing hnormal hSe

theorem extScan_sepfree : ∀ (rev acc : GoString), sep ∉ acc → sep ∉ extScan rev acc := by
  intro rev
  induction rev with
  | nil => intro acc _; simp [extScan]
  | cons b rest ih =>
    intro acc hacc
    unfold extScan
    by_cases hs : b = sep
    · simp [hs]
    · by_cases hd : b = 0x2E
      · subst hd
        simp only [hs, if_false, if_true]
        intro hm
        rcases List.mem_cons.mp hm with e | hm'
        · exact hs e.symm
        · exact hacc hm'
      · simp only [hs, hd, if_false]
        apply ih
        intro hm
        rcases List.mem_cons.mp hm with e | hm'
        · exact hs e.symm
        · exact hacc hm'

theorem ext_sepfree (name : GoString) : sep ∉ Ext name := extScan_sepfree _ _ (by simp)

theorem digitChar_ne_sep (m : Nat) (h : m < 10) : (Nat.digitChar m).toNat ≠ sep := by
  interval_cases m <;> decide

theorem toDigitsCore_sepfree :
    ∀ (fuel n : Nat) (ds : List Char), (∀ c ∈ ds, c.toNat ≠ sep) →
      ∀ c ∈ Nat.toDigitsCore 10 fuel n ds, c.toNat ≠ sep := by
  intro fuel
  induction fuel with
  | zero => intro n ds h; simpa [Nat.toDigitsCore] using h
  | succ fuel ih =>
    intro n ds h
    have hds : ∀ c ∈ Nat.digitChar (n % 10) :: ds, c.toNat ≠ sep := by
      intro c hc
      rcases List.mem_cons.mp hc with e | hc'
      · rw [e]; exact digitChar_ne_sep _ (Nat.mod_lt _ (by decide))
      · exact h c hc'
    unfold Nat.toDigitsCore
    by_cases h0 : n / 10 = 0
    · simpa [h0] using hds
    · simp only [h0, if_false]
      exact ih _ _ hds

theorem itoa_nat_sepfree (k : Nat) : sep ∉ itoa (k : Int) := by
  have hk : ¬ ((k : Int) < 0) := by omega
  unfold itoa natDigits
  simp only [hk, if_false, Int.natAbs_ofNat]
  intro hm
  obtain ⟨c, hc, hcs⟩ := List.mem_map.mp hm
  exact toDigitsCore_sepfree _ _ [] (fun _ h => by cases h) c hc hcs

theorem candidate_dir (file : FileInfo) (newName ext : GoString) (hext : sep ∉ ext)
    (hplain : PlainName (newName ++ ext)) (k : Nat) :
    Dir (candidate file newName ext k) = Clean file.Path := by
  unfold candidate
  by_cases hk : k = 0
  · simp only [hk, if_true]
    exact dir_join_plain _ _ hplain
  · simp only [hk, if_false]
    apply dir_join_plain
    have hname : sep ∉ newName := fun hm => hplain.2.2.2 (List.mem_append_left _ hm)
    have hu : (0x5F : Nat) ∈ sprintfNameNumber newName (k : Int) ++ ext := by
      have : str "_" = [0x5F] := by decide
      simp [sprintfNameNumber, this]
    refine ⟨?_, ?_, ?_, ?_⟩
    · intro e; rw [e] at hu; cases hu
    · intro e; rw [e] at hu; simp at hu
    · intro e; rw [e] at hu; simp at hu
    · have hus : sep ∉ str "_" := by decide
      simp only [sprintfNameNumber, List.mem_append, not_or]
      exact ⟨⟨⟨hname, hus⟩, itoa_nat_sepfree k⟩, hext⟩

theorem resolveOutcome_targets (file : FileInfo) (newName ext : GoString)
    (errors : List GoString) (world : World) :
    ∀ c ∈ (resolveOutcome file newName ext errors world).2.calls,
      c ∈ world.calls ∨ (c.old = file.FullPath ∧ ∃ k, c.new = candidate file newName ext k) := by
  cases hff : firstFree world.fs file newName ext with
  | none =>
    rw [resolveOutcome_none errors hff]
    exact fun c hc => Or.inl hc
  | some k =>
    rw [resolveOutcome_some errors hff]
    intro c hc
    rcases List.mem_append.mp hc with h | h
    · exact Or.inl h
    · right
      have : c = ⟨file.FullPath, candidate file newName ext k,
          (osRename world.fs file.FullPath (candidate file newName ext k)).2.isNone⟩ := by
        simpa using h
      rw [this]
      exact ⟨rfl, k, rfl⟩

/-- C7, as the code has it. Whenever the new file name (new base name followed by the
extension) is a plain name, that is not empty, not `.`, not `..` and free of
separators, every rename call that an iteration of `RenameFiles` or of `AIRenameFiles`
issues for a file has that file's path as source and a target whose directory is
`filepath.Clean(file.Path)`, which is `file.Path` itself when that is a cleaned path. -/
theorem rename_target_directory :
    (∀ (u : CaseTables) (rule : RenameRule) (st : LoopState) (file : FileInfo),
      PlainName (transformName u rule st.numberCounter file ++ Ext file.Name) →
      ∃ st', renameFilesBody u rule st file = some st' ∧
        ∀ c ∈ st'.world.calls, c ∈ st.world.calls ∨
          (c.old = file.FullPath ∧ Dir c.new = Clean file.Path)) ∧
    (∀ (st : List GoString × World) (entry : FileInfo × GoString),
      PlainName (entry.2 ++ Ext entry.1.Name) →
      ∃ st', aiRenameBody st entry = some st' ∧
        ∀ c ∈ st'.2.calls, c ∈ st.2.calls ∨
          (c.old = entry.1.FullPath ∧ Dir c.new = Clean entry.1.Path)) := by
  constructor
  · intro u rule st file hplain
    refine ⟨_, renameFilesBody_eq u rule st file, ?_⟩
    unfold renameStep
    by_cases hp : passesFilter rule file = false
    · simp only [hp, if_true]; exact fun c hc => Or.inl hc
    · have hp' : passesFilter rule file = true := by simpa using hp
      simp only [hp', Bool.true_eq_false, if_false]
      by_cases hn : Join file.Path (transformName u rule st.numberCounter file ++ Ext file.Name)
          = file.FullPath
      · simp only [hn, if_true]; exact fun c hc => Or.inl hc
      · simp only [hn, if_false]
        intro c hc
        rcases resolveOutcome_targets file (transformName u rule st.numberCounter file)
          (Ext file.Name) st.errors st.world c hc with h | ⟨hold, k, hnew⟩
        · exact Or.inl h
        · exact Or.inr ⟨hold, by rw [hnew]; exact candidate_dir _ _ _ (ext_sepfree _) hplain k⟩
  · intro st entry hplain
    refine ⟨_, aiRenameBody_eq st entry, ?_⟩
    unfold aiStep
    by_cases hn : Join entry.1.Path (entry.2 ++ Ext entry.1.Name) = entry.1.FullPath
    · simp only [hn, if_true]; exact fun c hc => Or.inl hc
    · simp only [hn, if_false]
      intro c hc
      rcases resolveOutcome_targets entry.1 entry.2 (Ext entry.1.Name) st.1 st.2 c hc
        with h | ⟨hold, k, hnew⟩
      · exact Or.inl h
      · exact Or.inr ⟨hold, by rw [hnew]; exact candidate_dir _ _ _ (ext_sepfree _) hplain k⟩

set_option maxRecDepth 8000 in
theorem rename_target_directory_witness :
    PlainName (str "c" ++ Ext (str "a.txt")) ∧
    ∃ st', aiRenameBody ([], ⟨fsOf [str "/d/a.txt", str "/d/c.txt"], []⟩)
        (⟨str "/d", str "a.txt", false, str "/d/a.txt"⟩, str "c") = some st' ∧
      ∀ c ∈ st'.2.calls, c ∈ ([] : List RenameCall) ∨
        (c.old = str "/d/a.txt" ∧ Dir c.new = Clean (str "/d")) :=
  have hplain : PlainName (str "c" ++ Ext (str "a.txt")) := by
    refine ⟨by decide, by decide, by decide, by decide⟩
  ⟨hplain, rename_target_directory.2 ([], ⟨fsOf [str "/d/a.txt", str "/d/c.txt"], []⟩)
    (⟨str "/d", str "a.txt", false, str "/d/a.txt"⟩, str "c") hplain⟩

/-- C7 fails as stated. With prefix `../` `RenameFiles` passes `/d/a.txt` as the target
for `/d/sub/a.txt`, and with the supplied name `x/y` `AIRenameFiles` passes
`/d/sub/x/y.txt`: the directories `/d` and `/d/sub/x` are not the file's directory
`/d/sub`.  For a file whose `Path` is `/d/sub/` the target directory is `/d/sub`. -/
theorem rename_target_leaves_directory :
    (RenameFiles latin1Tables [⟨str "/d/sub", str "a.txt", false, str "/d/sub/a.txt"⟩]
        { RenameRule.zero with AddPrefix := str "../" }
        ⟨fsOf [str "/d/sub/a.txt"], []⟩).map
        (fun r => r.world.calls.map (fun c => (c.old, c.new, Dir c.new)))
      = some [(str "/d/sub/a.txt", str "/d/a.txt", str "/d")] ∧
    (AIRenameFiles [⟨str "/d/sub", str "a.txt", false, str "/d/sub/a.txt"⟩] [str "x/y"]
        ⟨fsOf [str "/d/sub/a.txt"], []⟩).map
        (fun r => r.world.calls.map (fun c => (c.old, c.new, Dir c.new)))
      = some [(str "/d/sub/a.txt", str "/d/sub/x/y.txt", str "/d/sub/x")] ∧
    (AIRenameFiles [⟨str "/d/sub/", str "a.txt", false, str "/d/sub/a.txt"⟩] [str "b"]
        ⟨fsOf [str "/d/sub/a.txt"], []⟩).map
        (fun r => r.world.calls.map (fun c => (c.old, c.new, Dir c.new)))
      = some [(str "/d/sub/a.txt", str "/d/sub/b.txt", str "/d/sub")] ∧
    str "/d" ≠ str "/d/sub" ∧ str "/d/sub/x" ≠ str "/d/sub" ∧ str "/d/sub" ≠ str "/d/sub/" := by
  refine ⟨by decide, by decide, by decide, by decide, by decide, by decide⟩

/-! ## The round bounds in the model of `filepath.Match` are never reached -/

theorem decodeRune_width_pos (b : Nat) (rest : GoString) : 1 ≤ (decodeRune (b :: rest)).2 := by
  simp only [decodeRune]
  repeat' split
  all_goals simp

theorem getEsc_shorter {chunk nchunk : GoString} {r : Nat} (h : getEsc chunk = some (r, nchunk)) :
    nchunk.length < chunk.length := by
  cases chunk with
  | nil => simp [getEsc] at h
  | cons c rest =>
    unfold getEsc at h
    simp only at h
    by_cases h1 : c = 0x2D ∨ c = 0x5D
    · simp [h1] at h
    · simp only [h1, if_false] at h
      by_cases hc : c = 0x5C
      · simp only [hc, if_true] at h
        cases rest with
        | nil => simp at h
        | cons x rest =>
          simp only [reduceCtorEq, if_false] at h
          split_ifs at h
          simp only [Option.some.injEq, Prod.mk.injEq] at h
          obtain ⟨-, hn⟩ := h
          subst hn
          have := decodeRune_width_pos x rest
          simp only [List.length_drop, List.length_cons]
          omega
      · simp only [hc, if_false, reduceCtorEq] at h
        split_ifs at h
        simp only [Option.some.injEq, Prod.mk.injEq] at h
        obtain ⟨-, hn⟩ := h
        subst hn
        have := decodeRune_width_pos c rest
        simp only [List.length_drop, List.length_cons]
        omega

/-- A round of the class loop that returns has consumed at least one byte, and with more
rounds allowed than the chunk has bytes the bound is immaterial. -/
theorem classLoop_fuel (r : Nat) :
    ∀ (fuel1 fuel2 : Nat) (chunk : GoString) (m : Bool) (nrange : Nat),
      chunk.length < fuel1 → chunk.length < fuel2 →
      classLoop r fuel1 chunk m nrange = classLoop r fuel2 chunk m nrange ∧
      ∀ res, classLoop r fuel1 chunk m nrange = some res → res.2.length < chunk.length := by
  intro fuel1
  induction fuel1 with
  | zero => intro fuel2 chunk m nrange h1 _; omega
  | succ fuel1 ih =>
    intro fuel2 chunk m nrange h1 h2
    cases fuel2 with
    | zero => omega
    | succ fuel2 =>
      unfold classLoop
      by_cases hclose : chunk.head? = some 0x5D ∧ nrange > 0
      · simp only [hclose, and_self, if_true]
        refine ⟨trivial, ?_⟩
        intro res hres
        simp only [Option.some.injEq] at hres
        subst hres
        cases chunk with
        | nil => simp at hclose
        | cons c chunk => simp
      · simp only [hclose, if_false]
        cases hesc : getEsc chunk with
        | none => simp
        | some p =>
          obtain ⟨lo, chunk1⟩ := p
          have hlen1 := getEsc_shorter hesc
          simp only
          by_cases hdash : chunk1.head? = some 0x2D
          · simp only [hdash, if_true]
            cases hesc2 : getEsc chunk1.tail with
            | none => simp
            | some q =>
              obtain ⟨hi, chunk2⟩ := q
              have hlen2 := getEsc_shorter hesc2
              have htail : chunk1.tail.length ≤ chunk1.length := by simp
              simp only
              obtain ⟨e, hshort⟩ := ih fuel2 chunk2 (m || (decide (lo ≤ r) && decide (r ≤ hi)))
                (nrange + 1) (by omega) (by omega)
              exact ⟨e, fun res hres => by have := hshort res hres; omega⟩
          · simp only [hdash, if_false]
            obtain ⟨e, hshort⟩ := ih fuel2 chunk1 (m || (decide (lo ≤ r) && decide (r ≤ lo)))
              (nrange + 1) (by omega) (by omega)
            exact ⟨e, fun res hres => by have := hshort res hres; omega⟩

/-- With at least as many rounds allowed as the chunk has bytes, the bound of the
`matchChunk` loop is immaterial. -/
theorem matchChunkLoop_fuel :
    ∀ (fuel1 fuel2 : Nat) (chunk s : GoString) (failed : Bool),
      chunk.length ≤ fuel1 → chunk.length ≤ fuel2 →
      matchChunkLoop fuel1 chunk s failed = matchChunkLoop fuel2 chunk s failed := by
  intro fuel1
  induction fuel1 with
  | zero =>
    intro fuel2 chunk s failed h1 _
    have : chunk = [] := List.length_eq_zero.mp (by omega)
    subst this
    cases fuel2 <;> simp [matchChunkLoop]
  | succ fuel1 ih =>
    intro fuel2 chunk s failed h1 h2
    cases chunk with
    | nil => cases fuel2 <;> simp [matchChunkLoop]
    | cons c chunkRest =>
      cases fuel2 with
      | zero => simp at h2
      | succ fuel2 =>
        simp only [List.length_cons] at h1 h2
        unfold matchChunkLoop
        simp only
        by_cases hb : c = 0x5B
        · simp only [hb, if_true]
          generalize hch : (if chunkRest.head? = some 0x5E then chunkRest.tail else chunkRest)
            = chunk1
          have hlen1 : chunk1.length ≤ chunkRest.length := by
            rw [← hch]; split <;> simp
          cases hcl : classLoop (if (failed || s.isEmpty) = true then 0 else (decodeRune s).1)
              (chunk1.length + 1) chunk1 false 0 with
          | none => simp
          | some res =>
            have hshort := (classLoop_fuel _ (chunk1.length + 1) (chunk1.length + 1) chunk1 false 0
              (by omega) (by omega)).2 res hcl
            simp only
            exact ih fuel2 _ _ _ (by omega) (by omega)
        · simp only [hb, if_false]
          by_cases hq : c = 0x3F
          · simp only [hq, if_true]
            exact ih fuel2 _ _ _ (by omega) (by omega)
          · simp only [hq, if_false]
            by_cases hbs : c = 0x5C
            · simp only [hbs, if_true]
              cases chunkRest with
              | nil => simp
              | cons d chunk2 =>
                simp only [List.length_cons] at h1 h2
                exact ih fuel2 _ _ _ (by omega) (by omega)
            · simp only [hbs, if_false]
              exact ih fuel2 _ _ _ (by omega) (by omega)
theorem scanLen_pos (b : Nat) (rest : GoString) (hb : b ≠ 0x2A) (inrange : Bool) :
    1 ≤ scanLen (b :: rest) inrange := by
  unfold scanLen
  split_ifs
  · split <;> omega
  all_goals omega

theorem scanChunk_rest_shorter (pattern : GoString) (h : pattern ≠ []) :
    (scanChunk pattern).2.2.length < pattern.length := by
  cases pattern with
  | nil => exact absurd rfl h
  | cons b rest =>
    unfold scanChunk
    simp only [List.length_drop, List.length_cons]
    by_cases hb : b = 0x2A
    · have hle : ((b :: rest).dropWhile (fun b => b == 0x2A)).length ≤ rest.length := by
        rw [List.dropWhile_cons]
        simp only [hb, beq_self_eq_true, if_true]
        exact (List.dropWhile_sublist _).length_le
      omega
    · have hdw : (b :: rest).dropWhile (fun b => b == 0x2A) = b :: rest := by
        rw [List.dropWhile_cons]
        simp [hb]
      rw [hdw]
      have := scanLen_pos b rest hb false
      simp only [List.length_cons]
      omega

/-- With at least as many rounds allowed as the pattern has bytes, the bound of the
main loop of `filepath.Match` is immaterial. -/
theorem matchLoop_fuel :
    ∀ (fuel1 fuel2 : Nat) (pattern name : GoString), pattern.length ≤ fuel1 →
      pattern.length ≤ fuel2 → matchLoop fuel1 pattern name = matchLoop fuel2 pattern name := by
  intro fuel1
  induction fuel1 with
  | zero =>
    intro fuel2 pattern name h1 _
    have : pattern = [] := List.length_eq_zero.mp (by omega)
    subst this
    cases fuel2 <;> simp [matchLoop]
  | succ fuel1 ih =>
    intro fuel2 pattern name h1 h2
    by_cases hp : pattern = []
    · subst hp
      cases fuel2 <;> simp [matchLoop]
    · cases fuel2 with
      | zero => exact absurd (List.length_eq_zero.mp (by omega)) hp
      | succ fuel2 =>
        have hshort := scanChunk_rest_shorter pattern hp
        have e1 : ∀ t, matchLoop fuel1 (scanChunk pattern).2.2 t
            = matchLoop fuel2 (scanChunk pattern).2.2 t :=
          fun t => ih fuel2 _ t (by omega) (by omega)
        unfold matchLoop
        simp only [hp, if_false, e1]

/-- The bound used by `filepathMatch` can be replaced by any larger one. -/
theorem filepathMatch_fuel (pattern name : GoString) (fuel : Nat) (h : pattern.length ≤ fuel) :
    matchLoop fuel pattern name = filepathMatch pattern name :=
  matchLoop_fuel fuel (pattern.length + 1) pattern name h (Nat.le_succ _)

/-- The bound used by `matchChunk` can be replaced by any larger one. -/
theorem matchChunk_fuel (chunk s : GoString) (fuel : Nat) (h : chunk.length ≤ fuel) :
    matchChunkLoop fuel chunk s false = matchChunk chunk s :=
  matchChunkLoop_fuel fuel (chunk.length + 1) chunk s false h (Nat.le_succ _)

/-! ## C2: exhaustion is reported although no candidate exists -/

end FileRenaming
